import Mathlib

/-!
Sudoku solution validator (`sudoku_validator.c`).

A shallow embedding of the C program and a verification of its specification.

* C `int` values are modelled by `Int`.
* The fixed-size arrays `sudoku[N][N]`, `valid[NUM_THREADS]`, `seen[N+1]` and
  `params[NUM_THREADS]` are modelled by functions out of `Fin n`; every access
  through an `int` index is bounds-checked and an out-of-bounds access is the
  distinguished outcome `fault` / `none`.
* A `for` loop is a structural recursion on its trip count; `pthread_exit`
  inside a loop and `break` are the early-exit outcome `Ctl.exited`.
* In `main` the 27 threads are run one after the other in creation order, all
  of them before the aggregation loop (the join barrier).
* `check_region_log` is `check_region` with its array accesses recorded.
* `Sys` is an interleaving model in which `main` and the threads take their
  steps in any order.
-/

namespace SudokuValidator

/-! ## Data model -/

/-- Source: `#define N 9`. -/
abbrev N : Nat := 9

/-- Source: `#define NUM_THREADS 27`. -/
abbrev NUM_THREADS : Nat := 27

/-- Source: `int sudoku[N][N]`. -/
abbrev Grid := Fin N → Fin N → Int

/-- Source: `int valid[NUM_THREADS]`. -/
abbrev Board := Fin NUM_THREADS → Int

/-- Source: the local `int seen[N+1]` of `check_region`. -/
abbrev Seen := Fin (N + 1) → Int

/-- Source: the `parameters` struct handed to each thread. -/
structure parameters where
  thread_num : Int
  type : Int
  row : Int
  col : Int
deriving DecidableEq, Repr

/-- An `int` index into an array of `n` elements, when it is in bounds. -/
def toFin? (n : Nat) (i : Int) : Option (Fin n) :=
  if h : 0 ≤ i ∧ i < (n : Int) then some ⟨i.toNat, by omega⟩ else none

/-- Array read `a[i]`; `none` when `i` is out of bounds. -/
def readArr {α : Type} {n : Nat} (a : Fin n → α) (i : Int) : Option α :=
  (toFin? n i).map a

/-- Array write `a[i] = x`; `none` when `i` is out of bounds. -/
def writeArr {α : Type} {n : Nat} (a : Fin n → α) (i : Int) (x : α) : Option (Fin n → α) :=
  (toFin? n i).map (fun k => Function.update a k x)

/-- The read `sudoku[r][c]`. -/
def sudokuAt (g : Grid) (r c : Int) : Option Int :=
  match readArr g r with
  | none => none
  | some line => readArr line c

/-! ## Control flow -/

/-- Outcome of a statement inside a loop: fall through with a new local state,
leave early (`break`, or `pthread_exit` which ends the thread), or an
out-of-bounds access. -/
inductive Ctl (ε σ : Type) where
  | next (s : σ)
  | exited (e : ε)
  | fault
deriving DecidableEq, Repr

/-- The loop `body` run `n` times with the counter starting at `i` and advanced
by `step`, stopping at the first early exit or fault. -/
def loop {ε σ : Type} (body : Int → σ → Ctl ε σ) (step : Int) : Nat → Int → σ → Ctl ε σ
  | 0, _, s => .next s
  | n + 1, i, s =>
    match body i s with
    | .next s1 => loop body step n (i + step) s1
    | .exited e => .exited e
    | .fault => .fault

/-- Trip count of `for (i = lo; i < hi; i += step)`. -/
def trips (lo hi step : Int) : Nat :=
  if lo < hi then ((hi - lo - 1) / step).toNat + 1 else 0

/-- The C loop `for (int i = lo; i < hi; i += step) body`. -/
def forRange {ε σ : Type} (lo hi step : Int) (body : Int → σ → Ctl ε σ) (s : σ) : Ctl ε σ :=
  loop body step (trips lo hi step) lo s

/-- The values taken by the counter of `for (i = lo; i < hi; i += step)`. -/
def indices (lo hi step : Int) : List Int :=
  (List.range (trips lo hi step)).map (fun (j : Nat) => lo + (j : Int) * step)

/-! ## `check_region` -/

/-- Source: `valid[p->thread_num] = 0; pthread_exit(NULL);`. -/
def reject (p : parameters) (valid : Board) : Ctl Board Seen :=
  match writeArr valid p.thread_num 0 with
  | none => .fault
  | some v => .exited v

/-- Source: the statements after `int num = ...` in each loop body:
`if (num < 1 || num > 9 || seen[num]) { valid[p->thread_num] = 0; pthread_exit(NULL); }
seen[num] = 1;`. The `||` short-circuits, so `seen[num]` is read only when
`1 <= num <= 9`. -/
def visit (p : parameters) (valid : Board) (num : Int) (seen : Seen) : Ctl Board Seen :=
  if num < 1 ∨ num > 9 then reject p valid
  else
    match readArr seen num with
    | none => .fault
    | some s =>
      if s ≠ 0 then reject p valid
      else
        match writeArr seen num 1 with
        | none => .fault
        | some seen1 => .next seen1

/-- Source: one loop body, `int num = sudoku[r][c];` followed by `visit`. -/
def cell_step (g : Grid) (p : parameters) (valid : Board) (r c : Int) (seen : Seen) :
    Ctl Board Seen :=
  match sudokuAt g r c with
  | none => .fault
  | some num => visit p valid num seen

/-- Source: `check_region`. The result is the content of `valid[]` when the
thread has ended, `none` on an out-of-bounds access. -/
def check_region (g : Grid) (p : parameters) (valid : Board) : Option Board :=
  let seen0 : Seen := fun _ => 0
  let scan : Ctl Board Seen :=
    if p.type = 0 then
      forRange 0 N 1 (fun c seen => cell_step g p valid p.row c seen) seen0
    else if p.type = 1 then
      forRange 0 N 1 (fun r seen => cell_step g p valid r p.col seen) seen0
    else
      forRange p.row (p.row + 3) 1
        (fun r seen => forRange p.col (p.col + 3) 1
          (fun c seen1 => cell_step g p valid r c seen1) seen) seen0
  match scan with
  | .next _ => writeArr valid p.thread_num 1
  | .exited v => some v
  | .fault => none

/-- The cell coordinates `check_region` scans for `p` when no early exit is
taken, in scan order: the loop headers of `check_region` without the body. -/
def region_cells (p : parameters) : List (Int × Int) :=
  if p.type = 0 then
    (indices 0 N 1).map (fun c => (p.row, c))
  else if p.type = 1 then
    (indices 0 N 1).map (fun r => (r, p.col))
  else
    (indices p.row (p.row + 3) 1).flatMap
      (fun r => (indices p.col (p.col + 3) 1).map (fun c => (r, c)))

/-! ## `main` -/

/-- Local state of `main` during the three thread-creation loops: the array
`params` (`none` is a slot not yet initialised), `thread_idx`, and the
descriptors handed to `pthread_create`, in creation order. -/
structure Dispatch where
  params : Fin NUM_THREADS → Option parameters
  thread_idx : Int
  created : List parameters

/-- Source: the common body of the creation loops,
`params[thread_idx] = (parameters){thread_idx, type, row, col};
pthread_create(&threads[thread_idx], NULL, check_region, &params[thread_idx]);
thread_idx++;`. -/
def create_thread (type row col : Int) (st : Dispatch) : Ctl Empty Dispatch :=
  let d : parameters := { thread_num := st.thread_idx, type := type, row := row, col := col }
  match writeArr st.params st.thread_idx (some d) with
  | none => .fault
  | some ps =>
    .next { params := ps, thread_idx := st.thread_idx + 1, created := st.created ++ [d] }

/-- Source: `main`, steps 1) to 3): the three creation loops. -/
def dispatch : Ctl Empty Dispatch :=
  let st0 : Dispatch := { params := fun _ => none, thread_idx := 0, created := [] }
  match forRange 0 N 1 (fun i st => create_thread 0 i 0 st) st0 with
  | .next st1 =>
    (match forRange 0 N 1 (fun i st => create_thread 1 0 i st) st1 with
     | .next st2 =>
       forRange 0 N 3
         (fun row st => forRange 0 N 3 (fun col st3 => create_thread 2 row col st3) st) st2
     | .exited e => .exited e
     | .fault => .fault)
  | .exited e => .exited e
  | .fault => .fault

/-- The threads of the descriptors `ps` run to completion one after the other. -/
def run_tasks (g : Grid) : List parameters → Board → Option Board
  | [], valid => some valid
  | p :: ps, valid =>
    match check_region g p valid with
    | none => none
    | some v => run_tasks g ps v

/-- Source: `main`, step 5): `if (! valid[i]) { all_valid = 0; break; }`. -/
def aggregate_step (valid : Board) (i : Int) (_all_valid : Int) : Ctl Int Int :=
  match readArr valid i with
  | none => .fault
  | some x => if x = 0 then .exited 0 else .next _all_valid

/-- Source: `main`, step 5): the aggregation loop, giving `all_valid`. -/
def aggregate (valid : Board) : Option Int :=
  match forRange 0 NUM_THREADS 1 (aggregate_step valid) 1 with
  | .next a => some a
  | .exited a => some a
  | .fault => none

/-- What a run of the program leaves behind: the array `valid[]`, the text
written to standard output and the exit status. -/
structure Outcome where
  valid : Board
  stdout : String
  status : Int

/-- Source: the two `printf` calls of `main`. -/
def report (all_valid : Int) : String :=
  if all_valid ≠ 0 then "Sudoku solution is VALID.\n" else "Sudoku solution is INVALID.\n"

/-- Source: `main`, on the grid `g` and the initial content `valid` of the
global array. -/
def main (g : Grid) (valid : Board) : Option Outcome :=
  match dispatch with
  | .next st =>
    (match run_tasks g st.created valid with
     | none => none
     | some v =>
       match aggregate v with
       | none => none
       | some all_valid => some { valid := v, stdout := report all_valid, status := 0 })
  | .exited _ => none
  | .fault => none

/-- Source: the initialiser of the global `sudoku`. -/
def sudoku : Grid := fun r c =>
  ([[6,2,4,5,3,9,1,8,7],
    [5,1,9,7,2,8,6,3,4],
    [8,3,7,6,1,4,2,9,5],
    [1,4,3,8,6,5,7,2,9],
    [9,5,8,2,4,7,3,6,1],
    [7,6,2,3,9,1,4,5,8],
    [3,7,1,9,5,6,8,4,2],
    [4,9,6,1,8,2,5,7,3],
    [2,8,5,4,7,3,9,1,6]].getD r.val []).getD c.val 0

/-- Source: the initialiser `int valid[NUM_THREADS] = {0}`. -/
def valid : Board := fun _ => 0

/-! ## Specification-side notions -/

/-- The digits a region has to hold. -/
def digits : List Int := [1, 2, 3, 4, 5, 6, 7, 8, 9]

/-- Cells of row `r`, left to right. -/
def rowCells (r : Fin N) : List (Fin N × Fin N) :=
  (List.finRange N).map (fun c => (r, c))

/-- Cells of column `c`, top to bottom. -/
def colCells (c : Fin N) : List (Fin N × Fin N) :=
  (List.finRange N).map (fun r => (r, c))

/-- Cells of the 3x3 box in band `b` and stack `s` (top-left corner
`(3*b, 3*s)`), row-major. -/
def boxCells (b s : Fin 3) : List (Fin N × Fin N) :=
  (List.finRange 3).flatMap (fun i => (List.finRange 3).map
    (fun j => ((⟨3 * b.val + i.val, by unfold N; omega⟩ : Fin N),
      (⟨3 * s.val + j.val, by unfold N; omega⟩ : Fin N))))

/-- The region with index `k`: 0..8 are the rows, 9..17 the columns, 18..26 the
boxes in row-major order of their top-left corner. -/
def specRegion (k : Fin NUM_THREADS) : List (Fin N × Fin N) :=
  if h : k.val < 9 then rowCells ⟨k.val, h⟩
  else if h2 : k.val < 18 then colCells ⟨k.val - 9, by unfold N; omega⟩
  else boxCells ⟨(k.val - 18) / 3, by have := k.isLt; unfold NUM_THREADS at this; omega⟩
    ⟨(k.val - 18) % 3, by omega⟩

/-- Region index of row `r`. -/
def rowIndex (r : Fin N) : Fin NUM_THREADS :=
  ⟨r.val, by have := r.isLt; unfold N at this; unfold NUM_THREADS; omega⟩

/-- Region index of column `c`. -/
def colIndex (c : Fin N) : Fin NUM_THREADS :=
  ⟨9 + c.val, by have := c.isLt; unfold N at this; unfold NUM_THREADS; omega⟩

/-- Region index of the `j`-th box, boxes counted in row-major order. -/
def boxIndex (j : Fin N) : Fin NUM_THREADS :=
  ⟨18 + j.val, by have := j.isLt; unfold N at this; unfold NUM_THREADS; omega⟩

/-- The descriptor expected for region index `k`. -/
def descriptor (k : Fin NUM_THREADS) : parameters :=
  if k.val < 9 then { thread_num := k.val, type := 0, row := k.val, col := 0 }
  else if k.val < 18 then { thread_num := k.val, type := 1, row := 0, col := (k.val - 9 : Nat) }
  else { thread_num := k.val, type := 2,
         row := (3 * ((k.val - 18) / 3) : Nat), col := (3 * ((k.val - 18) % 3) : Nat) }

/-- Grid coordinates as the `int` pairs the program works with. -/
def toIntPair (rc : Fin N × Fin N) : Int × Int := ((rc.1.val : Int), (rc.2.val : Int))

/-- The values the grid holds at the cells `cs`, in order. -/
def values (g : Grid) (cs : List (Fin N × Fin N)) : List Int :=
  cs.map (fun rc => g rc.1 rc.2)

/-- The list contains each digit 1..9 exactly once. -/
def ExactlyOnce (vals : List Int) : Prop := ∀ d ∈ digits, vals.count d = 1

/-- Every value is in 1..9 and no value occurs twice. -/
def Distinct19 (vals : List Int) : Prop := (∀ v ∈ vals, 1 ≤ v ∧ v ≤ 9) ∧ vals.Nodup

instance (vals : List Int) : Decidable (ExactlyOnce vals) := by
  unfold ExactlyOnce; infer_instance

instance (vals : List Int) : Decidable (Distinct19 vals) := by
  unfold Distinct19; infer_instance

/-- Every row, every column and every 3x3 box contains each digit 1..9 exactly
once. -/
def SolvedGrid (g : Grid) : Prop :=
  (∀ r : Fin N, ExactlyOnce (values g (rowCells r))) ∧
  (∀ c : Fin N, ExactlyOnce (values g (colCells c))) ∧
  (∀ b s : Fin 3, ExactlyOnce (values g (boxCells b s)))

/-- The grid `g` with the cell `(r, c)` replaced by `v`. -/
def setCell (g : Grid) (r c : Fin N) (v : Int) : Grid :=
  Function.update g r (Function.update (g r) c v)

/-- The state `main` is in after its creation loops. -/
def dispatched : Dispatch :=
  match dispatch with
  | .next st => st
  | _ => { params := fun _ => none, thread_idx := 0, created := [] }

/-- The result board the 27 region checks are expected to leave. -/
def verdicts (g : Grid) : Board :=
  fun k => if Distinct19 (values g (specRegion k)) then 1 else 0

/-- No value of `vals` is marked in `seen`, every value is in 1..9 and no value
occurs twice: the condition under which the scan of `vals` goes through. -/
def Fresh (seen : Seen) (vals : List Int) : Prop :=
  (∀ v ∈ vals, 1 ≤ v ∧ v ≤ 9 ∧ readArr seen v = some 0) ∧ vals.Nodup

/-- A loop body run over an explicit list of counter values. -/
def scanList {ε σ α : Type} (f : α → σ → Ctl ε σ) : List α → σ → Ctl ε σ
  | [], s => .next s
  | a :: as, s =>
    match f a s with
    | .next s1 => scanList f as s1
    | .exited e => .exited e
    | .fault => .fault

/-- Source: `main` from step 5) on: the aggregation loop over the content `v`
of `valid[]`, the `printf` of the verdict and `return 0`. -/
def conclude (v : Board) : Option Outcome :=
  match aggregate v with
  | none => none
  | some all_valid => some { valid := v, stdout := report all_valid, status := 0 }

/-- The slot index a descriptor writes to (0 when `thread_num` is out of
bounds). -/
def slotOf (p : parameters) : Fin NUM_THREADS :=
  (toFin? NUM_THREADS p.thread_num).getD 0

/-! ## `check_region` with its array accesses recorded -/

/-- An element of one of the arrays `check_region` touches: `sudoku[r][c]`,
`seen[i]` or `valid[k]`. -/
inductive Loc where
  | sudoku (r c : Int)
  | seen (i : Int)
  | valid (k : Int)
deriving DecidableEq, Repr

/-- One array access: a read or a write of an element. -/
structure Access where
  write : Bool
  loc : Loc
deriving DecidableEq, Repr

/-- Source: `valid[p->thread_num] = 0; pthread_exit(NULL);`, the write
recorded. -/
def reject_log (p : parameters) (valid : Board) (log : List Access) :
    Ctl (Board × List Access) (Seen × List Access) :=
  match writeArr valid p.thread_num 0 with
  | none => .fault
  | some v => .exited (v, log ++ [⟨true, .valid p.thread_num⟩])

/-- Source: the statements of `visit`, each array access recorded in program
order: `seen[num]` is read only when the range test has passed, and written
only when the thread goes on. -/
def visit_log (p : parameters) (valid : Board) (num : Int) (st : Seen × List Access) :
    Ctl (Board × List Access) (Seen × List Access) :=
  if num < 1 ∨ num > 9 then reject_log p valid st.2
  else
    match readArr st.1 num with
    | none => .fault
    | some s =>
      if s ≠ 0 then reject_log p valid (st.2 ++ [⟨false, .seen num⟩])
      else
        match writeArr st.1 num 1 with
        | none => .fault
        | some seen1 => .next (seen1, st.2 ++ [⟨false, .seen num⟩, ⟨true, .seen num⟩])

/-- Source: one loop body, the read `sudoku[r][c]` recorded. -/
def cell_step_log (g : Grid) (p : parameters) (valid : Board) (r c : Int)
    (st : Seen × List Access) : Ctl (Board × List Access) (Seen × List Access) :=
  match sudokuAt g r c with
  | none => .fault
  | some num => visit_log p valid num (st.1, st.2 ++ [⟨false, .sudoku r c⟩])

/-- Source: `check_region`, returning with the final `valid[]` the list of the
array accesses its statements make, in program order (the initialiser
`seen[N+1] = {0}` is not an indexed access and is not listed). -/
def check_region_log (g : Grid) (p : parameters) (valid : Board) :
    Option (Board × List Access) :=
  let st0 : Seen × List Access := (fun _ => 0, [])
  let scan : Ctl (Board × List Access) (Seen × List Access) :=
    if p.type = 0 then
      forRange 0 N 1 (fun c st => cell_step_log g p valid p.row c st) st0
    else if p.type = 1 then
      forRange 0 N 1 (fun r st => cell_step_log g p valid r p.col st) st0
    else
      forRange p.row (p.row + 3) 1
        (fun r st => forRange p.col (p.col + 3) 1
          (fun c st1 => cell_step_log g p valid r c st1) st) st0
  match scan with
  | .next st =>
    (match writeArr valid p.thread_num 1 with
     | none => none
     | some v => some (v, st.2 ++ [⟨true, .valid p.thread_num⟩]))
  | .exited e => some e
  | .fault => none

/-- The outcome of a statement with its components mapped. -/
def Ctl.map {ε σ ε1 σ1 : Type} (fe : ε → ε1) (fs : σ → σ1) : Ctl ε σ → Ctl ε1 σ1
  | .next s => .next (fs s)
  | .exited e => .exited (fe e)
  | .fault => .fault

/-- The grid cells read, in order of reading. -/
def gridReads (log : List Access) : List (Int × Int) :=
  log.filterMap (fun a => match a.loc with
    | .sudoku r c => some (r, c)
    | _ => none)

/-- The locations written outside the thread's own local array `seen`, in
order of writing. -/
def sharedWrites (log : List Access) : List Loc :=
  (log.filter (fun a => a.write && (match a.loc with
    | .seen _ => false
    | _ => true))).map (fun a => a.loc)

/-- The access is one the claim allows the thread with slot `k`: a read of a
grid cell inside the 9x9 grid, an access to `seen[i]` with `1 <= i <= 9`, or a
write of `valid[k]`. -/
def Allowed (k : Fin NUM_THREADS) (a : Access) : Prop :=
  match a.loc with
  | .sudoku r c => a.write = false ∧ 0 ≤ r ∧ r ≤ 8 ∧ 0 ≤ c ∧ c ≤ 8
  | .seen i => 1 ≤ i ∧ i ≤ 9
  | .valid j => a.write = true ∧ j = (k.val : Int)

/-- While the thread with slot `k` scans: every access so far is allowed and
nothing outside `seen` has been written. -/
def Scanning (k : Fin NUM_THREADS) (log : List Access) : Prop :=
  (∀ a ∈ log, Allowed k a) ∧ sharedWrites log = []

/-- When the thread with slot `k` has ended with the board `e.1`, started from
`valid0`: every access is allowed, the one write outside `seen` is that of
`valid[k]`, and the other slots are as in `valid0`. -/
def Ended (k : Fin NUM_THREADS) (valid0 : Board) (e : Board × List Access) : Prop :=
  (∀ a ∈ e.2, Allowed k a) ∧ sharedWrites e.2 = [.valid (k.val : Int)] ∧
    ∀ j, j ≠ k → e.1 j = valid0 j

/-- The value at position `i` of `vals` is outside 1..9 or equals the value at
an earlier position. -/
def Offends (vals : List Int) (i : Nat) : Prop :=
  vals.getD i 0 < 1 ∨ vals.getD i 0 > 9 ∨ vals.getD i 0 ∈ vals.take i

/-- Position of the first value of the list that is outside 1..9, or in
`earlier`, or equal to a value before it in the list. -/
def firstOffender (earlier : List Int) : List Int → Option Nat
  | [] => none
  | v :: vs =>
    if v < 1 ∨ v > 9 ∨ v ∈ earlier then some 0
    else (firstOffender (earlier ++ [v]) vs).map (fun i => i + 1)

/-- The array `seen` marks exactly the values of `e` among 1..9. -/
def Marks (seen : Seen) (e : List Int) : Prop :=
  ∀ v : Int, 1 ≤ v → v ≤ 9 → readArr seen v = some (if v ∈ e then 1 else 0)

/-! ## The threads run concurrently

An interleaving model of the program: `main` and the created threads take
steps one at a time in any order, each step making at most one access to the
memory the threads share (`sudoku[][]` and `valid[]`). The array `seen` is
local to its thread. The descriptor `params[k]` is written by `main` before
thread `k` is created and never afterwards, so it is taken as a constant of
thread `k`. -/

/-- Where a thread running `check_region` stands: about to read the first cell
of `todo` (or, `todo` being empty, about to record 1), about to record 0, ended
by `pthread_exit`, or stopped by an out-of-bounds access. -/
inductive Thread where
  | scanning (todo : List (Int × Int)) (seen : Seen)
  | rejecting
  | finished
  | crashed

/-- Source: the entry of `check_region`: no cell read, `seen` all zero. -/
def thread_start (p : parameters) : Thread :=
  .scanning (region_cells p) (fun _ => 0)

/-- Source: one step of `check_region` on descriptor `p`: the new state of the
thread, the new `valid[]` and the shared access made. A step is one of:
the read `sudoku[r][c]` with the test and the update of `seen` that follow it;
the write `valid[p->thread_num] = 1` after the loops; the write
`valid[p->thread_num] = 0`. A thread that has ended has no step. -/
def thread_step (g : Grid) (p : parameters) (valid : Board) :
    Thread → Option (Thread × Board × Access)
  | .scanning [] _ =>
    some (match writeArr valid p.thread_num 1 with
      | none => (.crashed, valid, ⟨true, .valid p.thread_num⟩)
      | some v => (.finished, v, ⟨true, .valid p.thread_num⟩))
  | .scanning (rc :: todo) seen =>
    some (match sudokuAt g rc.1 rc.2 with
      | none => (.crashed, valid, ⟨false, .sudoku rc.1 rc.2⟩)
      | some num =>
        if num < 1 ∨ num > 9 then (.rejecting, valid, ⟨false, .sudoku rc.1 rc.2⟩)
        else
          match readArr seen num with
          | none => (.crashed, valid, ⟨false, .sudoku rc.1 rc.2⟩)
          | some s =>
            if s ≠ 0 then (.rejecting, valid, ⟨false, .sudoku rc.1 rc.2⟩)
            else
              match writeArr seen num 1 with
              | none => (.crashed, valid, ⟨false, .sudoku rc.1 rc.2⟩)
              | some seen1 => (.scanning todo seen1, valid, ⟨false, .sudoku rc.1 rc.2⟩))
  | .rejecting =>
    some (match writeArr valid p.thread_num 0 with
      | none => (.crashed, valid, ⟨true, .valid p.thread_num⟩)
      | some v => (.finished, v, ⟨true, .valid p.thread_num⟩))
  | .finished => none
  | .crashed => none

/-- A thread step on the pair of thread state and `valid[]`; a thread without
a step stays as it is. -/
def thread_total (g : Grid) (p : parameters) (x : Thread × Board) : Thread × Board :=
  match thread_step g p x.2 x.1 with
  | none => x
  | some r => (r.1, r.2.1)

/-- Where `main` stands: in the creation loops with `n` threads created, in the
join loop about to join thread `n`, in the aggregation loop about to test
`valid[i]` (with `all_valid` still 1), about to print, or returned. -/
inductive MainPc where
  | creating (n : Nat)
  | joining (n : Nat)
  | aggregating (i : Nat)
  | reporting (all_valid : Int)
  | returned (status : Int)
deriving DecidableEq

/-- State of the running program: the shared `valid[]`, the threads (`none` is
a thread not yet created), where `main` stands and the text printed. The grid
is never written and is a parameter of the steps. -/
structure Sys where
  valid : Board
  threads : Fin NUM_THREADS → Option Thread
  pc : MainPc
  stdout : String

/-- Source: the program at the entry of `main`. -/
def Sys.start (valid0 : Board) : Sys :=
  { valid := valid0, threads := fun _ => none, pc := .creating 0, stdout := "" }

/-- Source: one step of `main`: create the next thread on its descriptor;
`pthread_join` of the next thread, possible only once that thread has ended;
one test `valid[i]` of the aggregation loop; the `printf`; loop exits. -/
def main_step (s : Sys) : Option (Sys × Option Access) :=
  match s.pc with
  | .creating n =>
    if h : n < NUM_THREADS then
      match dispatched.params ⟨n, h⟩ with
      | none => none
      | some p =>
        some ({ s with threads := Function.update s.threads ⟨n, h⟩ (some (thread_start p)),
                       pc := .creating (n + 1) }, none)
    else some ({ s with pc := .joining 0 }, none)
  | .joining n =>
    if h : n < NUM_THREADS then
      match s.threads ⟨n, h⟩ with
      | some .finished => some ({ s with pc := .joining (n + 1) }, none)
      | _ => none
    else some ({ s with pc := .aggregating 0 }, none)
  | .aggregating i =>
    if h : i < NUM_THREADS then
      some (if s.valid ⟨i, h⟩ = 0 then { s with pc := .reporting 0 }
            else { s with pc := .aggregating (i + 1) }, some ⟨false, .valid (i : Int)⟩)
    else some ({ s with pc := .reporting 1 }, none)
  | .reporting a => some ({ s with stdout := s.stdout ++ report a, pc := .returned 0 }, none)
  | .returned _ => none

/-- One step of the program taken by `main` (`none`) or by thread `k`
(`some k`), with the shared access it makes; `none` when that agent has no
step in this state. -/
def Sys.step (g : Grid) (a : Option (Fin NUM_THREADS)) (s : Sys) : Option (Sys × Option Access) :=
  match a with
  | none => main_step s
  | some k =>
    match s.threads k, dispatched.params k with
    | some t, some p =>
      (thread_step g p s.valid t).map (fun r =>
        ({ s with threads := Function.update s.threads k (some r.1), valid := r.2.1 },
          some r.2.2))
    | _, _ => none

/-- The interleaving given by the list of agents, from the state `s`; `none`
when it asks a step of an agent that has none. -/
def Sys.run (g : Grid) : List (Option (Fin NUM_THREADS)) → Sys → Option Sys
  | [], s => some s
  | a :: as, s =>
    match Sys.step g a s with
    | none => none
    | some r => Sys.run g as r.1

/-- Two accesses conflict: same location, at least one of them a write. -/
def Conflict (x y : Access) : Prop :=
  x.loc = y.loc ∧ (x.write = true ∨ y.write = true)

/-- Thread state from which thread `k`, run on its own, ends having written
the verdict of region `k` to `valid[k]` and nothing else. -/
def ThreadOK (g : Grid) (k : Fin NUM_THREADS) (t : Thread) : Prop :=
  ∀ v : Board, (thread_total g (descriptor k))^[10] (t, v)
    = (.finished, Function.update v k (verdicts g k))

/-- What holds of the threads, of `valid[]` and of the text printed at each
point of `main`: in particular `main` is past the join loop only when every
thread has ended. -/
def PcInv (s : Sys) : Prop :=
  match s.pc with
  | .creating n =>
    n ≤ NUM_THREADS ∧ (∀ k : Fin NUM_THREADS, k.val < n ↔ s.threads k ≠ none) ∧ s.stdout = ""
  | .joining n =>
    n ≤ NUM_THREADS ∧ (∀ k, s.threads k ≠ none) ∧
      (∀ k : Fin NUM_THREADS, k.val < n → s.threads k = some .finished) ∧ s.stdout = ""
  | .aggregating i =>
    i ≤ NUM_THREADS ∧ (∀ k, s.threads k = some .finished) ∧
      (∀ k : Fin NUM_THREADS, k.val < i → s.valid k ≠ 0) ∧ s.stdout = ""
  | .reporting a =>
    (∀ k, s.threads k = some .finished) ∧
      a = (if ∀ k, s.valid k ≠ 0 then 1 else 0) ∧ s.stdout = ""
  | .returned st =>
    (∀ k, s.threads k = some .finished) ∧ st = 0 ∧
      s.stdout = report (if ∀ k, s.valid k ≠ 0 then 1 else 0)

/-- Invariant of the running program started from `valid0`: a slot holds its
initial value until its thread has ended and the verdict of its region from
then on; every thread that has not ended is in a state `ThreadOK`; and `PcInv`
holds. -/
structure Inv (g : Grid) (valid0 : Board) (s : Sys) : Prop where
  h_fresh : ∀ k, s.threads k = none → s.valid k = valid0 k
  h_ended : ∀ k, s.threads k = some .finished → s.valid k = verdicts g k
  h_live : ∀ k t, s.threads k = some t → t ≠ .finished → ThreadOK g k t ∧ s.valid k = valid0 k
  h_pc : PcInv s

/-- Number of steps a thread can still take, at most. -/
def Thread.fuel : Option Thread → Nat
  | none => 12
  | some (.scanning todo _) => todo.length + 2
  | some .rejecting => 1
  | some .finished => 0
  | some .crashed => 0

/-- Number of steps `main` can still take, at most. -/
def MainPc.fuel : MainPc → Nat
  | .creating n => 100 - n
  | .joining n => 70 - n
  | .aggregating i => 40 - i
  | .reporting _ => 1
  | .returned _ => 0

/-- Number of steps the program can still take, at most. -/
def Sys.fuel (s : Sys) : Nat :=
  s.pc.fuel + ∑ k, Thread.fuel (s.threads k)

/-! ## The loop model -/

theorem trips_stop (lo hi step : Int) (h : ¬ lo < hi) : trips lo hi step = 0 := by
  simp [trips, h]

theorem trips_go (lo hi step : Int) (h : lo < hi) (hs : 0 < step) :
    trips lo hi step = trips (lo + step) hi step + 1 := by
  unfold trips
  rw [if_pos h]
  by_cases h2 : lo + step < hi
  · rw [if_pos h2]
    have e : hi - lo - 1 = (hi - (lo + step) - 1) + step := by ring
    rw [e, Int.add_ediv_of_dvd_right (dvd_refl step), Int.ediv_self (ne_of_gt hs)]
    have : 0 ≤ (hi - (lo + step) - 1) / step := Int.ediv_nonneg (by omega) (le_of_lt hs)
    omega
  · rw [if_neg h2]
    have : (hi - lo - 1) / step = 0 := Int.ediv_eq_zero_of_lt (by omega) (by omega)
    rw [this]; rfl

/-- The loop model obeys the unfolding of the C `for` statement: test the
condition, run the body, advance the counter. -/
theorem forRange_unfold {ε σ : Type} (lo hi step : Int) (hs : 0 < step)
    (body : Int → σ → Ctl ε σ) (s : σ) :
    forRange lo hi step body s =
      if lo < hi then
        (match body lo s with
         | .next s1 => forRange (lo + step) hi step body s1
         | .exited e => .exited e
         | .fault => .fault)
      else .next s := by
  unfold forRange
  by_cases h : lo < hi
  · rw [if_pos h, trips_go lo hi step h hs]; rfl
  · rw [if_neg h, trips_stop lo hi step h]; rfl

theorem loop_eq_scanList {ε σ : Type} (body : Int → σ → Ctl ε σ) (step : Int) (n : Nat) :
    ∀ (i : Int) (s : σ),
      loop body step n i s
        = scanList body ((List.range n).map (fun (j : Nat) => i + (j : Int) * step)) s := by
  induction n with
  | zero => intro i s; rfl
  | succ n ih =>
    intro i s
    rw [List.range_succ_eq_map, List.map_cons, List.map_map]
    simp only [loop, scanList, Nat.cast_zero, zero_mul, add_zero]
    have e : ((fun j : Nat => i + (j : Int) * step) ∘ Nat.succ)
        = (fun j : Nat => (i + step) + (j : Int) * step) := by
      funext j; simp only [Function.comp, Nat.succ_eq_add_one, Nat.cast_add, Nat.cast_one]; ring
    rw [e]
    cases body i s with
    | next s1 => exact ih (i + step) s1
    | exited e => rfl
    | fault => rfl

theorem forRange_eq_scanList {ε σ : Type} (lo hi step : Int) (body : Int → σ → Ctl ε σ) (s : σ) :
    forRange lo hi step body s = scanList body (indices lo hi step) s :=
  loop_eq_scanList body step (trips lo hi step) lo s

theorem scanList_map {ε σ α β : Type} (f : β → σ → Ctl ε σ) (h : α → β) (l : List α) :
    ∀ s : σ, scanList f (l.map h) s = scanList (fun a => f (h a)) l s := by
  induction l with
  | nil => intro s; rfl
  | cons a l ih =>
    intro s
    simp only [List.map_cons, scanList]
    cases f (h a) s with
    | next s1 => exact ih s1
    | exited e => rfl
    | fault => rfl

theorem scanList_append {ε σ α : Type} (f : α → σ → Ctl ε σ) (l1 l2 : List α) :
    ∀ s : σ, scanList f (l1 ++ l2) s =
      (match scanList f l1 s with
       | .next s1 => scanList f l2 s1
       | .exited e => .exited e
       | .fault => .fault) := by
  induction l1 with
  | nil => intro s; rfl
  | cons a l ih =>
    intro s
    simp only [List.cons_append, scanList]
    cases f a s with
    | next s1 => exact ih s1
    | exited e => rfl
    | fault => rfl

theorem scanList_flatMap {ε σ α β : Type} (f : β → σ → Ctl ε σ) (m : α → List β) (l : List α) :
    ∀ s : σ, scanList (fun a t => scanList f (m a) t) l s = scanList f (l.flatMap m) s := by
  induction l with
  | nil => intro s; rfl
  | cons a l ih =>
    intro s
    rw [List.flatMap_cons, scanList_append]
    simp only [scanList]
    cases scanList f (m a) s with
    | next s1 => exact ih s1
    | exited e => rfl
    | fault => rfl

/-! ## Array accesses -/

theorem toFin?_coe (n : Nat) (k : Fin n) : toFin? n (k.val : Int) = some k := by
  unfold toFin?
  have h : 0 ≤ (k.val : Int) ∧ (k.val : Int) < (n : Int) := ⟨by omega, by have := k.isLt; omega⟩
  rw [dif_pos h]
  congr 1

theorem toFin?_eq_some {n : Nat} {i : Int} {k : Fin n} (h : toFin? n i = some k) :
    i = (k.val : Int) := by
  unfold toFin? at h
  split at h
  · rename_i hr
    have e := Option.some.inj h
    rw [← e]; simp only [Int.toNat_of_nonneg hr.1]
  · cases h

theorem toFin?_of_range (n : Nat) (i : Int) (h0 : 0 ≤ i) (h1 : i < (n : Int)) :
    ∃ k : Fin n, toFin? n i = some k := by
  unfold toFin?
  rw [dif_pos ⟨h0, h1⟩]
  exact ⟨_, rfl⟩

theorem sudokuAt_coe (g : Grid) (rc : Fin N × Fin N) :
    sudokuAt g (toIntPair rc).1 (toIntPair rc).2 = some (g rc.1 rc.2) := by
  simp only [sudokuAt, toIntPair, readArr, toFin?_coe, Option.map_some']

theorem check_region_eq_scanList (g : Grid) (p : parameters) (valid : Board) :
    check_region g p valid =
      (match scanList (fun (rc : Int × Int) seen => cell_step g p valid rc.1 rc.2 seen)
          (region_cells p) (fun _ => 0) with
       | .next _ => writeArr valid p.thread_num 1
       | .exited v => some v
       | .fault => none) := by
  unfold check_region region_cells
  by_cases h0 : p.type = 0
  · simp only [if_pos h0, forRange_eq_scanList, scanList_map]
  · by_cases h1 : p.type = 1
    · simp only [if_neg h0, if_pos h1, forRange_eq_scanList, scanList_map]
    · simp only [if_neg h0, if_neg h1, forRange_eq_scanList, ← scanList_flatMap, scanList_map]

theorem scanList_cells (g : Grid) (p : parameters) (valid : Board) (cs : List (Fin N × Fin N)) :
    ∀ seen : Seen,
      scanList (fun (rc : Int × Int) seen => cell_step g p valid rc.1 rc.2 seen)
          (cs.map toIntPair) seen
        = scanList (visit p valid) (values g cs) seen := by
  intro seen
  unfold values
  rw [scanList_map, scanList_map]
  congr 1
  funext rc s
  simp only [cell_step, sudokuAt_coe]

/-! ## The scan of one region -/

theorem readArr_update {n : Nat} (a : Fin n → Int) (i : Fin n) (x : Int) (w : Int) (v : Int)
    (hi : toFin? n v = some i) :
    readArr (Function.update a i x) w = if w = v then some x else readArr a w := by
  unfold readArr
  cases hw : toFin? n w with
  | none =>
    have : w ≠ v := by
      intro e; rw [e, hi] at hw; cases hw
    simp [this]
  | some j =>
    have ew := toFin?_eq_some hw
    have ev := toFin?_eq_some hi
    by_cases e : w = v
    · have : j = i := by
        apply Fin.ext; omega
      simp [e, this]
    · have : j ≠ i := by
        intro c; apply e; rw [ew, ev, c]
      simp [e, Function.update_noteq this]

theorem fresh_cons (seen : Seen) (v : Int) (i : Fin (N + 1)) (hi : toFin? (N + 1) v = some i)
    (hr : 1 ≤ v ∧ v ≤ 9) (hz : seen i = 0) (vs : List Int) :
    Fresh seen (v :: vs) ↔ Fresh (Function.update seen i 1) vs := by
  have hv : readArr seen v = some 0 := by simp [readArr, hi, hz]
  unfold Fresh
  constructor
  · rintro ⟨ha, hn⟩
    rw [List.nodup_cons] at hn
    refine ⟨?_, hn.2⟩
    intro w hw
    obtain ⟨h1, h2, h3⟩ := ha w (List.mem_cons_of_mem _ hw)
    refine ⟨h1, h2, ?_⟩
    have hne : w ≠ v := by
      intro e; apply hn.1; rw [← e]; exact hw
    rw [readArr_update seen i 1 w v hi, if_neg hne]
    exact h3
  · rintro ⟨ha, hn⟩
    have key : ∀ w ∈ vs, w ≠ v ∧ readArr seen w = some 0 := by
      intro w hw
      obtain ⟨_, _, h3⟩ := ha w hw
      rw [readArr_update seen i 1 w v hi] at h3
      by_cases e : w = v
      · rw [if_pos e] at h3; cases h3
      · rw [if_neg e] at h3; exact ⟨e, h3⟩
    refine ⟨?_, ?_⟩
    · intro w hw
      rcases List.mem_cons.mp hw with e | hw
      · rw [e]; exact ⟨hr.1, hr.2, hv⟩
      · exact ⟨(ha w hw).1, (ha w hw).2.1, (key w hw).2⟩
    · rw [List.nodup_cons]
      refine ⟨?_, hn⟩
      intro hmem
      exact (key v hmem).1 rfl

theorem reject_eq (p : parameters) (valid : Board) (k : Fin NUM_THREADS)
    (hk : toFin? NUM_THREADS p.thread_num = some k) :
    reject p valid = .exited (Function.update valid k 0) := by
  simp [reject, writeArr, hk]

theorem scanList_visit (p : parameters) (valid : Board) (k : Fin NUM_THREADS)
    (hk : toFin? NUM_THREADS p.thread_num = some k) (vals : List Int) :
    ∀ seen : Seen,
      (Fresh seen vals → ∃ s1, scanList (visit p valid) vals seen = .next s1) ∧
      (¬ Fresh seen vals →
        scanList (visit p valid) vals seen = .exited (Function.update valid k 0)) := by
  induction vals with
  | nil =>
    intro seen
    refine ⟨fun _ => ⟨seen, rfl⟩, fun h => ?_⟩
    exact absurd ⟨by simp, List.nodup_nil⟩ h
  | cons v vs ih =>
    intro seen
    by_cases hr : v < 1 ∨ v > 9
    · have hv : visit p valid v seen = .exited (Function.update valid k 0) := by
        rw [visit, if_pos hr, reject_eq p valid k hk]
      have hs : scanList (visit p valid) (v :: vs) seen
          = .exited (Function.update valid k 0) := by
        simp only [scanList, hv]
      refine ⟨fun hf => ?_, fun _ => hs⟩
      have := hf.1 v (List.mem_cons_self _ _)
      omega
    · have hr2 : 1 ≤ v ∧ v ≤ 9 := by omega
      obtain ⟨i, hi⟩ := toFin?_of_range (N + 1) v (by omega) (by simp only [N]; omega)
      have hread : readArr seen v = some (seen i) := by simp [readArr, hi]
      by_cases hz : seen i = 0
      · have hv : visit p valid v seen = .next (Function.update seen i 1) := by
          simp [visit, hr, hread, hz, writeArr, hi]
        have hs : scanList (visit p valid) (v :: vs) seen
            = scanList (visit p valid) vs (Function.update seen i 1) := by
          simp only [scanList, hv]
        rw [hs, fresh_cons seen v i hi hr2 hz vs]
        exact ih (Function.update seen i 1)
      · have hv : visit p valid v seen = .exited (Function.update valid k 0) := by
          simp [visit, hr, hread, hz, reject_eq p valid k hk]
        have hs : scanList (visit p valid) (v :: vs) seen
            = .exited (Function.update valid k 0) := by
          simp only [scanList, hv]
        refine ⟨fun hf => ?_, fun _ => hs⟩
        have h3 := (hf.1 v (List.mem_cons_self _ _)).2.2
        rw [hread] at h3
        exact absurd (Option.some.inj h3) hz

theorem fresh_zero (vals : List Int) : Fresh (fun _ => 0) vals ↔ Distinct19 vals := by
  unfold Fresh Distinct19
  constructor
  · rintro ⟨ha, hn⟩
    exact ⟨fun v hv => ⟨(ha v hv).1, (ha v hv).2.1⟩, hn⟩
  · rintro ⟨ha, hn⟩
    refine ⟨fun v hv => ⟨(ha v hv).1, (ha v hv).2, ?_⟩, hn⟩
    obtain ⟨i, hi⟩ := toFin?_of_range (N + 1) v (by have := (ha v hv).1; omega)
      (by have := (ha v hv).2; simp only [N]; omega)
    simp [readArr, hi]

/-- What `check_region` does for a descriptor whose slot index is `k` and whose
scanned cells are the in-grid cells `cs`. -/
theorem check_region_spec (g : Grid) (p : parameters) (valid : Board) (k : Fin NUM_THREADS)
    (cs : List (Fin N × Fin N)) (hk : toFin? NUM_THREADS p.thread_num = some k)
    (hcs : region_cells p = cs.map toIntPair) :
    check_region g p valid
      = some (Function.update valid k (if Distinct19 (values g cs) then 1 else 0)) := by
  rw [check_region_eq_scanList, hcs, scanList_cells]
  have h := scanList_visit p valid k hk (values g cs) (fun _ => 0)
  rw [fresh_zero] at h
  by_cases hd : Distinct19 (values g cs)
  · obtain ⟨s1, hs⟩ := h.1 hd
    rw [hs, if_pos hd]
    simp [writeArr, hk]
  · rw [h.2 hd, if_neg hd]

theorem mem_digits (v : Int) : v ∈ digits ↔ 1 ≤ v ∧ v ≤ 9 := by
  simp only [digits, List.mem_cons, List.mem_singleton, List.not_mem_nil, or_false]
  omega

theorem digits_nodup : digits.Nodup := by decide

theorem distinct19_iff_perm (vals : List Int) (hl : vals.length = 9) :
    Distinct19 vals ↔ vals.Perm digits := by
  constructor
  · rintro ⟨hr, hn⟩
    have hsub : vals ⊆ digits := fun v hv => (mem_digits v).mpr (hr v hv)
    exact (List.subperm_of_subset hn hsub).perm_of_length_le (by rw [hl]; decide)
  · intro hp
    exact ⟨fun v hv => (mem_digits v).mp (hp.subset hv), hp.nodup_iff.mpr digits_nodup⟩

theorem exactlyOnce_iff_perm (vals : List Int) (hl : vals.length = 9) :
    ExactlyOnce vals ↔ vals.Perm digits := by
  constructor
  · intro h
    have hsub : digits ⊆ vals := by
      intro d hd
      have := h d hd
      exact List.count_pos_iff.mp (by omega)
    exact ((List.subperm_of_subset digits_nodup hsub).perm_of_length_le
      (by rw [hl]; decide)).symm
  · intro hp d hd
    rw [hp.count_eq]
    exact List.count_eq_one_of_mem digits_nodup hd

theorem exactlyOnce_iff_distinct19 (vals : List Int) (hl : vals.length = 9) :
    ExactlyOnce vals ↔ Distinct19 vals :=
  (exactlyOnce_iff_perm vals hl).trans (distinct19_iff_perm vals hl).symm

theorem specRegion_length : ∀ k : Fin NUM_THREADS, (specRegion k).length = 9 := by decide

theorem values_length (g : Grid) (cs : List (Fin N × Fin N)) :
    (values g cs).length = cs.length := by
  simp [values]

/-! ## The descriptors built by `main` -/

theorem dispatch_eq : dispatch = .next dispatched := rfl

theorem created_eq : dispatched.created = (List.finRange NUM_THREADS).map descriptor := by
  decide

theorem params_eq : ∀ k : Fin NUM_THREADS, dispatched.params k = some (descriptor k) := by
  decide

theorem descriptor_slot :
    ∀ k : Fin NUM_THREADS, toFin? NUM_THREADS (descriptor k).thread_num = some k := by
  decide

theorem descriptor_cells :
    ∀ k : Fin NUM_THREADS, region_cells (descriptor k) = (specRegion k).map toIntPair := by
  decide

theorem check_region_descriptor (g : Grid) (k : Fin NUM_THREADS) (valid : Board) :
    check_region g (descriptor k) valid = some (Function.update valid k (verdicts g k)) :=
  check_region_spec g (descriptor k) valid k (specRegion k) (descriptor_slot k)
    (descriptor_cells k)

theorem run_tasks_descriptors (g : Grid) (ks : List (Fin NUM_THREADS)) :
    ∀ valid : Board,
      run_tasks g (ks.map descriptor) valid
        = some (fun j => if j ∈ ks then verdicts g j else valid j) := by
  induction ks with
  | nil => intro valid; simp [run_tasks]
  | cons k ks ih =>
    intro valid
    simp only [List.map_cons, run_tasks, check_region_descriptor, ih]
    congr 1
    funext j
    by_cases hj : j ∈ ks
    · simp [hj]
    · by_cases e : j = k
      · subst e; simp [hj]
      · simp [hj, e, Function.update_noteq e]

theorem run_tasks_created (g : Grid) (valid : Board) :
    run_tasks g dispatched.created valid = some (verdicts g) := by
  rw [created_eq, run_tasks_descriptors]
  congr 1
  funext j
  simp

/-! ## Aggregation -/

theorem scanList_aggregate (v : Board) (a : Int) (ks : List (Fin NUM_THREADS)) :
    scanList (aggregate_step v) (ks.map (fun k => (k.val : Int))) a
      = if ∀ k ∈ ks, v k ≠ 0 then .next a else .exited 0 := by
  induction ks with
  | nil => simp [scanList]
  | cons k ks ih =>
    simp only [List.map_cons, scanList, aggregate_step, readArr, toFin?_coe, Option.map_some']
    by_cases hz : v k = 0
    · simp [hz]
    · simp only [if_neg hz, ih]
      simp [hz]

theorem aggregate_spec (v : Board) :
    aggregate v = some (if ∀ k, v k ≠ 0 then 1 else 0) := by
  have hi : indices 0 NUM_THREADS 1
      = (List.finRange NUM_THREADS).map (fun k => (k.val : Int)) := by decide
  unfold aggregate
  rw [forRange_eq_scanList, hi, scanList_aggregate]
  by_cases h : ∀ k, v k ≠ 0
  · simp [h]
  · have : ¬ ∀ k ∈ List.finRange NUM_THREADS, v k ≠ 0 := by
      intro c; exact h (fun k => c k (List.mem_finRange k))
    simp only [if_neg this, if_neg h]

theorem main_spec (g : Grid) (valid : Board) :
    main g valid = some { valid := verdicts g,
                          stdout := report (if ∀ k, verdicts g k ≠ 0 then 1 else 0),
                          status := 0 } := by
  simp only [main, dispatch_eq, run_tasks_created, aggregate_spec]

/-! ## The verdict of `main` -/

theorem specRegion_kind : ∀ k : Fin NUM_THREADS,
    (∃ r, specRegion k = rowCells r) ∨ (∃ c, specRegion k = colCells c) ∨
      (∃ b s, specRegion k = boxCells b s) := by decide

theorem specRegion_row : ∀ r : Fin N, ∃ k, specRegion k = rowCells r := by decide

theorem specRegion_col : ∀ c : Fin N, ∃ k, specRegion k = colCells c := by decide

theorem specRegion_box : ∀ b s : Fin 3, ∃ k, specRegion k = boxCells b s := by decide

theorem verdicts_eq_one (g : Grid) (k : Fin NUM_THREADS) :
    verdicts g k = 1 ↔ ExactlyOnce (values g (specRegion k)) := by
  rw [exactlyOnce_iff_distinct19 _ (by rw [values_length, specRegion_length])]
  unfold verdicts
  by_cases h : Distinct19 (values g (specRegion k)) <;> simp [h]

theorem verdicts_ne_zero (g : Grid) (k : Fin NUM_THREADS) :
    verdicts g k ≠ 0 ↔ verdicts g k = 1 := by
  unfold verdicts
  by_cases h : Distinct19 (values g (specRegion k)) <;> simp [h]

theorem solved_iff_verdicts (g : Grid) : SolvedGrid g ↔ ∀ k, verdicts g k = 1 := by
  simp only [verdicts_eq_one]
  constructor
  · rintro ⟨hr, hc, hb⟩ k
    rcases specRegion_kind k with ⟨r, e⟩ | ⟨c, e⟩ | ⟨b, s, e⟩
    · rw [e]; exact hr r
    · rw [e]; exact hc c
    · rw [e]; exact hb b s
  · intro h
    refine ⟨fun r => ?_, fun c => ?_, fun b s => ?_⟩
    · obtain ⟨k, e⟩ := specRegion_row r
      rw [← e]; exact h k
    · obtain ⟨k, e⟩ := specRegion_col c
      rw [← e]; exact h k
    · obtain ⟨k, e⟩ := specRegion_box b s
      rw [← e]; exact h k

theorem report_valid_iff (a : Int) : report a = "Sudoku solution is VALID.\n" ↔ a ≠ 0 := by
  unfold report
  by_cases h : a ≠ 0
  · simp [h]
  · simp only [if_neg h, h, iff_false]
    decide

theorem report_invalid_iff (a : Int) : report a = "Sudoku solution is INVALID.\n" ↔ a = 0 := by
  unfold report
  by_cases h : a ≠ 0
  · simp only [if_pos h]
    constructor
    · intro c; exact absurd c (by decide)
    · intro c; exact absurd c h
  · have h0 : a = 0 := by omega
    simp [h0]

theorem main_valid_iff (g : Grid) (valid0 : Board) :
    (∃ o, main g valid0 = some o ∧ o.stdout = "Sudoku solution is VALID.\n") ↔ SolvedGrid g := by
  rw [main_spec, solved_iff_verdicts]
  constructor
  · rintro ⟨o, ho, hs⟩
    rw [← Option.some.inj ho] at hs
    simp only [report_valid_iff] at hs
    by_cases h : ∀ k, verdicts g k ≠ 0
    · exact fun k => (verdicts_ne_zero g k).mp (h k)
    · simp [h] at hs
  · intro h
    refine ⟨_, rfl, ?_⟩
    have h2 : ∀ k, verdicts g k ≠ 0 := fun k => (verdicts_ne_zero g k).mpr (h k)
    simp only [report_valid_iff]
    simp [h2]

/-- C1: for every 9x9 grid and every initial content of `valid[]`, `main` ends
with a verdict; the verdict is VALID (the aggregate of `valid[]` is 1 and the
VALID line is printed) if and only if every row, every column and every 3x3 box
contains each digit 1..9 exactly once; and when that holds all 27 slots of
`valid[]` are 1 after the tasks have run. -/
theorem C1_verdict_iff_solved (g : Grid) (valid0 : Board) :
    ∃ o, main g valid0 = some o ∧
      (aggregate o.valid = some 1 ↔ SolvedGrid g) ∧
      (o.stdout = "Sudoku solution is VALID.\n" ↔ SolvedGrid g) ∧
      (SolvedGrid g → ∀ k, o.valid k = 1) := by
  refine ⟨_, main_spec g valid0, ?_, ?_, ?_⟩
  · simp only [aggregate_spec, solved_iff_verdicts]
    constructor
    · intro h
      by_cases h2 : ∀ k, verdicts g k ≠ 0
      · exact fun k => (verdicts_ne_zero g k).mp (h2 k)
      · simp [h2] at h
    · intro h
      have h2 : ∀ k, verdicts g k ≠ 0 := fun k => (verdicts_ne_zero g k).mpr (h k)
      simp [h2]
  · have := main_valid_iff g valid0
    rw [main_spec] at this
    rw [← this]
    constructor
    · intro h; exact ⟨_, rfl, h⟩
    · rintro ⟨o, ho, hs⟩
      rw [← Option.some.inj ho] at hs
      exact hs
  · intro h
    exact (solved_iff_verdicts g).mp h

/-- Witness of C1 on the grid compiled into the program. -/
theorem C1_verdict_iff_solved_witness :
    SolvedGrid sudoku ∧ ∃ o, main sudoku valid = some o ∧ ∀ k, o.valid k = 1 := by
  have hs : SolvedGrid sudoku := by
    unfold SolvedGrid
    decide
  obtain ⟨o, ho, _, _, h⟩ := C1_verdict_iff_solved sudoku valid
  exact ⟨hs, o, ho, h hs⟩

/-! ## Region checks -/

theorem region_cells_row (t x : Int) (r : Fin N) :
    region_cells { thread_num := t, type := 0, row := (r.val : Int), col := x }
      = (rowCells r).map toIntPair := by
  have hi : indices 0 N 1 = (List.finRange N).map (fun c => (c.val : Int)) := by decide
  simp only [region_cells, if_pos, hi, rowCells, List.map_map]
  rfl

theorem region_cells_col (t x : Int) (c : Fin N) :
    region_cells { thread_num := t, type := 1, row := x, col := (c.val : Int) }
      = (colCells c).map toIntPair := by
  have hi : indices 0 N 1 = (List.finRange N).map (fun c => (c.val : Int)) := by decide
  have h10 : ¬ ((1 : Int) = 0) := by decide
  simp only [region_cells, if_neg h10, if_pos, hi, colCells, List.map_map]
  rfl

theorem region_cells_box (t : Int) (b s : Fin 3) :
    region_cells { thread_num := t, type := 2, row := 3 * (b.val : Int), col := 3 * (s.val : Int) }
      = (boxCells b s).map toIntPair := by
  have h : ∀ b s : Fin 3,
      region_cells { thread_num := 0, type := 2, row := 3 * (b.val : Int), col := 3 * (s.val : Int) }
        = (boxCells b s).map toIntPair := by decide
  exact h b s

/-- The outcome recorded in a slot for a region holding `vals`: 1 exactly when
`vals` is a permutation of 1..9, 0 otherwise, the latter exactly when a value
is below 1, above 9, or occurs twice. -/
theorem slot_outcome (valid0 : Board) (t : Fin NUM_THREADS) (vals : List Int)
    (hl : vals.length = 9) :
    (Function.update valid0 t (if Distinct19 vals then 1 else 0) t = 1 ↔ vals.Perm digits) ∧
    (Function.update valid0 t (if Distinct19 vals then 1 else 0) t = 0 ↔ ¬ vals.Perm digits) ∧
    (¬ vals.Perm digits ↔ (∃ x ∈ vals, x < 1) ∨ (∃ x ∈ vals, x > 9) ∨ ¬ vals.Nodup) := by
  rw [← distinct19_iff_perm vals hl, Function.update_same]
  refine ⟨?_, ?_, ?_⟩
  · by_cases h : Distinct19 vals <;> simp [h]
  · by_cases h : Distinct19 vals <;> simp [h]
  · unfold Distinct19
    constructor
    · intro h
      by_cases hn : vals.Nodup
      · have : ¬ ∀ v ∈ vals, 1 ≤ v ∧ v ≤ 9 := fun c => h ⟨c, hn⟩
        push_neg at this
        obtain ⟨v, hv, hlt⟩ := this
        by_cases h1 : v < 1
        · exact Or.inl ⟨v, hv, h1⟩
        · exact Or.inr (Or.inl ⟨v, hv, by have := hlt (by omega); omega⟩)
      · exact Or.inr (Or.inr hn)
    · rintro (⟨x, hx, h1⟩ | ⟨x, hx, h9⟩ | hn) ⟨hr, hnd⟩
      · have := hr x hx; omega
      · have := hr x hx; omega
      · exact hn hnd

/-- C2: for every grid, every initial content of `valid[]`, every slot index
`t` in 0..26 and every descriptor of the three kinds `main` builds (type 0 with
a row in 0..8, type 1 with a column in 0..8, type 2 with start row and start
column in 0, 3, 6), `check_region` ends with `valid[t] = 1` if and only if the
nine cells of the region are a permutation of 1..9, and with `valid[t] = 0`
otherwise, which is the case exactly when some cell is below 1, some cell is
above 9 or some value occurs twice. The field a kind does not read is
arbitrary (`x`); every descriptor `main` creates is of one of these forms. -/
theorem C2_region_valid_iff_perm (g : Grid) (valid0 : Board) (t : Fin NUM_THREADS) (x : Int) :
    (∀ r : Fin N, ∃ v,
        check_region g { thread_num := t.val, type := 0, row := r.val, col := x } valid0 = some v ∧
        (v t = 1 ↔ (values g (rowCells r)).Perm digits) ∧
        (v t = 0 ↔ ¬ (values g (rowCells r)).Perm digits) ∧
        (¬ (values g (rowCells r)).Perm digits ↔
          (∃ y ∈ values g (rowCells r), y < 1) ∨ (∃ y ∈ values g (rowCells r), y > 9) ∨
            ¬ (values g (rowCells r)).Nodup)) ∧
    (∀ c : Fin N, ∃ v,
        check_region g { thread_num := t.val, type := 1, row := x, col := c.val } valid0 = some v ∧
        (v t = 1 ↔ (values g (colCells c)).Perm digits) ∧
        (v t = 0 ↔ ¬ (values g (colCells c)).Perm digits) ∧
        (¬ (values g (colCells c)).Perm digits ↔
          (∃ y ∈ values g (colCells c), y < 1) ∨ (∃ y ∈ values g (colCells c), y > 9) ∨
            ¬ (values g (colCells c)).Nodup)) ∧
    (∀ b s : Fin 3, ∃ v,
        check_region g { thread_num := t.val, type := 2, row := 3 * (b.val : Int),
                         col := 3 * (s.val : Int) } valid0 = some v ∧
        (v t = 1 ↔ (values g (boxCells b s)).Perm digits) ∧
        (v t = 0 ↔ ¬ (values g (boxCells b s)).Perm digits) ∧
        (¬ (values g (boxCells b s)).Perm digits ↔
          (∃ y ∈ values g (boxCells b s), y < 1) ∨ (∃ y ∈ values g (boxCells b s), y > 9) ∨
            ¬ (values g (boxCells b s)).Nodup)) ∧
    (∀ p ∈ dispatched.created, ∃ k : Fin NUM_THREADS,
        (∃ r : Fin N, p = { thread_num := k.val, type := 0, row := r.val, col := 0 }) ∨
        (∃ c : Fin N, p = { thread_num := k.val, type := 1, row := 0, col := c.val }) ∨
        (∃ b s : Fin 3, p = { thread_num := k.val, type := 2, row := 3 * (b.val : Int),
                              col := 3 * (s.val : Int) })) := by
  have hrow : ∀ r : Fin N, (values g (rowCells r)).length = 9 := by
    intro r; simp [values, rowCells]
  have hcol : ∀ c : Fin N, (values g (colCells c)).length = 9 := by
    intro c; simp [values, colCells]
  have hbox : ∀ b s : Fin 3, (values g (boxCells b s)).length = 9 := by
    intro b s
    have : ∀ b s : Fin 3, (boxCells b s).length = 9 := by decide
    rw [values_length, this]
  refine ⟨fun r => ⟨_, ?_, slot_outcome valid0 t _ (hrow r)⟩,
    fun c => ⟨_, ?_, slot_outcome valid0 t _ (hcol c)⟩,
    fun b s => ⟨_, ?_, slot_outcome valid0 t _ (hbox b s)⟩, ?_⟩
  · exact check_region_spec g _ valid0 t (rowCells r) (toFin?_coe _ t) (region_cells_row _ x r)
  · exact check_region_spec g _ valid0 t (colCells c) (toFin?_coe _ t) (region_cells_col _ x c)
  · exact check_region_spec g _ valid0 t (boxCells b s) (toFin?_coe _ t)
      (region_cells_box _ b s)
  · decide

/-- Witness of C2: row 0 of the grid compiled into the program, checked by the
first descriptor `main` creates. -/
theorem C2_region_valid_iff_perm_witness :
    ({ thread_num := 0, type := 0, row := 0, col := 0 } : parameters) ∈ dispatched.created ∧
    ∃ v, check_region sudoku { thread_num := 0, type := 0, row := 0, col := 0 } valid = some v ∧
      v 0 = 1 := by
  refine ⟨by decide, ?_⟩
  obtain ⟨v, hv, h1, _, _⟩ := (C2_region_valid_iff_perm sudoku valid 0 0).1 0
  exact ⟨v, hv, h1.mpr ((distinct19_iff_perm (values sudoku (rowCells 0)) (by decide)).mp (by decide))⟩

/-- C3: for every content of `valid[]` the aggregation loop of `main` ends
with `all_valid` equal to 0 or 1, and `all_valid = 1` if and only if all 27
slots are non-zero; a zero slot at any index forces `all_valid = 0` and the
INVALID line. -/
theorem C3_aggregate_iff_all_valid (v : Board) :
    ∃ a, aggregate v = some a ∧ (a = 1 ∨ a = 0) ∧
      (a = 1 ↔ ∀ k, v k ≠ 0) ∧
      (∀ k, v k = 0 → a = 0 ∧ report a = "Sudoku solution is INVALID.\n") := by
  refine ⟨_, aggregate_spec v, ?_, ?_, ?_⟩
  · by_cases h : ∀ k, v k ≠ 0 <;> simp [h]
  · by_cases h : ∀ k, v k ≠ 0 <;> simp [h]
  · intro k hk
    have h : ¬ ∀ k, v k ≠ 0 := fun c => c k hk
    rw [if_neg h]
    exact ⟨rfl, rfl⟩

/-- Witness of C3: a board whose only zero slot is the one at index 13. -/
theorem C3_aggregate_iff_all_valid_witness :
    ∃ a, aggregate (Function.update (fun _ => 1) 13 0) = some a ∧ a = 0 ∧
      report a = "Sudoku solution is INVALID.\n" := by
  obtain ⟨a, ha, _, _, h⟩ := C3_aggregate_iff_all_valid (Function.update (fun _ => 1) 13 0)
  exact ⟨a, ha, h 13 (by decide)⟩

/-- C4: the three creation loops of `main` end without a fault with
`thread_idx = 27` and 27 created threads; for every `k` in 0..26 the slot
`params[k]` holds the descriptor handed to the `k`-th created thread, its
`thread_num` is `k`, it is the descriptor of row `k` (type 0) for `k` in 0..8,
of column `k-9` (type 1) for `k` in 9..17 and of the box with top-left corner
`(3*((k-18)/3), 3*((k-18)%3))` (type 2) for `k` in 18..26, and the cells
`check_region` scans for it are those of that region, the cells of a box in
row-major order; the corners of descriptors 18..26 are (0,0),(0,3),(0,6),
(3,0),(3,3),(3,6),(6,0),(6,3),(6,6) in that order. -/
theorem C4_descriptors :
    dispatch = .next dispatched ∧ dispatched.thread_idx = 27 ∧
    dispatched.created.length = 27 ∧
    (∀ k : Fin NUM_THREADS,
      dispatched.params k = some (descriptor k) ∧
      dispatched.created[k.val]? = some (descriptor k) ∧
      (descriptor k).thread_num = (k.val : Int) ∧
      region_cells (descriptor k) = (specRegion k).map toIntPair) ∧
    (∀ r : Fin N,
      descriptor (rowIndex r)
        = { thread_num := (r.val : Int), type := 0, row := (r.val : Int), col := 0 } ∧
      region_cells (descriptor (rowIndex r))
        = (List.range 9).map (fun i : Nat => ((r.val : Int), (i : Int)))) ∧
    (∀ c : Fin N,
      descriptor (colIndex c)
        = { thread_num := ((9 + c.val : Nat) : Int), type := 1, row := 0, col := (c.val : Int) } ∧
      region_cells (descriptor (colIndex c))
        = (List.range 9).map (fun i : Nat => ((i : Int), (c.val : Int)))) ∧
    (∀ j : Fin N,
      descriptor (boxIndex j)
        = { thread_num := ((18 + j.val : Nat) : Int), type := 2,
            row := ((3 * (j.val / 3) : Nat) : Int), col := ((3 * (j.val % 3) : Nat) : Int) } ∧
      region_cells (descriptor (boxIndex j))
        = (List.range 9).map (fun i : Nat =>
            (((3 * (j.val / 3) + i / 3 : Nat) : Int), ((3 * (j.val % 3) + i % 3 : Nat) : Int)))) ∧
    (dispatched.created.drop 18).map (fun p => (p.row, p.col))
      = [(0, 0), (0, 3), (0, 6), (3, 0), (3, 3), (3, 6), (6, 0), (6, 3), (6, 6)] := by
  refine ⟨rfl, by decide, by decide, by decide, by decide, by decide, by decide, by decide⟩

/-! ## Coverage, output and scenarios -/

/-- C5: for each of the 27 descriptors `main` creates, the cells `check_region`
scans (early exit ignored) are 9 pairwise distinct cells inside the 9x9 grid;
and every grid cell `(r, c)` occurs in exactly 3 of the 27 descriptors: exactly
one of type 0 (row), exactly one of type 1 (column) and exactly one of type 2
(box). -/
theorem C5_cells_cover :
    dispatched.created.length = 27 ∧
    (∀ p ∈ dispatched.created,
      (region_cells p).length = 9 ∧ (region_cells p).Nodup ∧
      ∀ rc ∈ region_cells p, 0 ≤ rc.1 ∧ rc.1 ≤ 8 ∧ 0 ≤ rc.2 ∧ rc.2 ≤ 8) ∧
    (∀ r c : Fin N,
      (dispatched.created.filter
        (fun p => decide (toIntPair (r, c) ∈ region_cells p))).length = 3 ∧
      (dispatched.created.filter
        (fun p => decide (p.type = 0 ∧ toIntPair (r, c) ∈ region_cells p))).length = 1 ∧
      (dispatched.created.filter
        (fun p => decide (p.type = 1 ∧ toIntPair (r, c) ∈ region_cells p))).length = 1 ∧
      (dispatched.created.filter
        (fun p => decide (p.type = 2 ∧ toIntPair (r, c) ∈ region_cells p))).length = 1) := by
  refine ⟨by decide, by decide, by decide⟩

/-- Witness of C5: the last descriptor `main` creates, the bottom-right box. -/
theorem C5_cells_cover_witness :
    ({ thread_num := 26, type := 2, row := 6, col := 6 } : parameters) ∈ dispatched.created ∧
    (region_cells { thread_num := 26, type := 2, row := 6, col := 6 }).length = 9 ∧
    (region_cells { thread_num := 26, type := 2, row := 6, col := 6 }).Nodup :=
  have hm : ({ thread_num := 26, type := 2, row := 6, col := 6 } : parameters)
      ∈ dispatched.created := by decide
  ⟨hm, (C5_cells_cover.2.1 _ hm).1, (C5_cells_cover.2.1 _ hm).2.1⟩

/-- C6: for every grid and every initial content of `valid[]`, `main` ends
having written exactly one line to standard output: the VALID line when all 27
slots are valid, the INVALID line otherwise, and nothing else. -/
theorem C6_single_verdict_line (g : Grid) (valid0 : Board) :
    ∃ o, main g valid0 = some o ∧
      o.stdout = (if ∀ k, o.valid k = 1 then "Sudoku solution is VALID.\n"
                  else "Sudoku solution is INVALID.\n") ∧
      o.stdout = (if ∀ k, o.valid k ≠ 0 then "Sudoku solution is VALID.\n"
                  else "Sudoku solution is INVALID.\n") := by
  refine ⟨_, main_spec g valid0, ?_, ?_⟩
  · simp only [← verdicts_ne_zero]
    by_cases h : ∀ k, verdicts g k ≠ 0
    · simp only [if_pos h]; rfl
    · simp only [if_neg h]; rfl
  · by_cases h : ∀ k, verdicts g k ≠ 0
    · simp only [if_pos h]; rfl
    · simp only [if_neg h]; rfl

/-- C7: run on the grid compiled into the program, from the initial all-zero
`valid[]`, the program sets all 27 slots of `valid[]` to 1, prints the VALID
line and returns 0. -/
theorem C7_canonical_valid :
    sudoku 0 = (fun c => [6, 2, 4, 5, 3, 9, 1, 8, 7].getD c.val 0) ∧
    ∃ o, main sudoku valid = some o ∧ (∀ k, o.valid k = 1) ∧
      o.stdout = "Sudoku solution is VALID.\n" ∧ o.status = 0 :=
  ⟨rfl, _, rfl, by decide, by decide, by decide⟩

theorem main_invalid_iff (g : Grid) (valid0 : Board) :
    (∃ o, main g valid0 = some o ∧ o.stdout = "Sudoku solution is INVALID.\n")
      ↔ ¬ SolvedGrid g := by
  rw [main_spec, solved_iff_verdicts]
  constructor
  · rintro ⟨o, ho, hs⟩ hall
    rw [← Option.some.inj ho] at hs
    simp only [report_invalid_iff] at hs
    have h2 : ∀ k, verdicts g k ≠ 0 := fun k => (verdicts_ne_zero g k).mpr (hall k)
    simp [h2] at hs
  · intro h
    refine ⟨_, rfl, ?_⟩
    have h2 : ¬ ∀ k, verdicts g k ≠ 0 := by
      intro c; exact h (fun k => (verdicts_ne_zero g k).mp (c k))
    simp only [report_invalid_iff, if_neg h2]

theorem row_sum (g : Grid) (r : Fin N) (h : ExactlyOnce (values g (rowCells r))) :
    ∑ c : Fin N, g r c = 45 := by
  have hl : (values g (rowCells r)).length = 9 := by simp [values, rowCells]
  have hp := (exactlyOnce_iff_perm _ hl).mp h
  have hs := hp.sum_eq
  have e : values g (rowCells r) = (List.finRange N).map (fun c => g r c) := by
    simp [values, rowCells, List.map_map, Function.comp_def]
  rw [e, ← Fin.sum_univ_def] at hs
  rw [hs]; rfl

theorem setCell_row (g : Grid) (r c : Fin N) (v : Int) (c1 : Fin N) :
    setCell g r c v r c1 = g r c1 + (if c1 = c then v - g r c else 0) := by
  unfold setCell
  rw [Function.update_same]
  by_cases e : c1 = c
  · subst e; simp
  · simp [e, Function.update_noteq e]

/-- Changing one cell of a solved grid to a different value breaks its row. -/
theorem not_solved_setCell (g : Grid) (r c : Fin N) (v : Int) (hs : SolvedGrid g)
    (hv : v ≠ g r c) : ¬ SolvedGrid (setCell g r c v) := by
  intro hs2
  have h1 := row_sum g r (hs.1 r)
  have h2 := row_sum (setCell g r c v) r (hs2.1 r)
  simp only [setCell_row, Finset.sum_add_distrib, Finset.sum_ite_eq', Finset.mem_univ,
    if_true] at h2
  apply hv
  omega

/-- C8: for every grid on which `main` prints the VALID line, replacing the
value of any single cell by any different integer makes `main` print the
INVALID line; in particular the compiled-in grid with cell (0,0) changed from 6
to 2, and with cell (4,4) changed from 4 to 0, both give the INVALID line. -/
theorem C8_single_change_invalid :
    (∀ (g : Grid) (valid0 valid1 : Board) (r c : Fin N) (v : Int),
      (∃ o, main g valid0 = some o ∧ o.stdout = "Sudoku solution is VALID.\n") →
      v ≠ g r c →
      ∃ o, main (setCell g r c v) valid1 = some o ∧
        o.stdout = "Sudoku solution is INVALID.\n") ∧
    (sudoku 0 0 = 6 ∧ ∃ o, main (setCell sudoku 0 0 2) valid = some o ∧
      o.stdout = "Sudoku solution is INVALID.\n") ∧
    (sudoku 4 4 = 4 ∧ ∃ o, main (setCell sudoku 4 4 0) valid = some o ∧
      o.stdout = "Sudoku solution is INVALID.\n") := by
  refine ⟨?_, ⟨by decide, _, rfl, by decide⟩, ⟨by decide, _, rfl, by decide⟩⟩
  intro g valid0 valid1 r c v hvalid hv
  exact (main_invalid_iff _ valid1).mpr
    (not_solved_setCell g r c v ((main_valid_iff g valid0).mp hvalid) hv)

/-- Witness of C8: the compiled-in grid with cell (2,5) changed from 4 to 7. -/
theorem C8_single_change_invalid_witness :
    (∃ o, main sudoku valid = some o ∧ o.stdout = "Sudoku solution is VALID.\n") ∧
    (7 : Int) ≠ sudoku 2 5 ∧
    ∃ o, main (setCell sudoku 2 5 7) valid = some o ∧
      o.stdout = "Sudoku solution is INVALID.\n" :=
  have h1 : ∃ o, main sudoku valid = some o ∧ o.stdout = "Sudoku solution is VALID.\n" :=
    ⟨_, rfl, by decide⟩
  have h2 : (7 : Int) ≠ sudoku 2 5 := by decide
  ⟨h1, h2, C8_single_change_invalid.1 sudoku valid valid 2 5 7 h1 h2⟩

/-- C9: run on the compiled-in grid with cell (8,8) changed from 6 to 9, the
program prints the INVALID line, and after the 27 tasks have run the slot of
column 8, `valid[17]`, and the slot of the bottom-right box, `valid[26]`, are
both 0. -/
theorem C9_scenario_D :
    sudoku 8 8 = 6 ∧
    ∃ o, main (setCell sudoku 8 8 9) valid = some o ∧
      o.stdout = "Sudoku solution is INVALID.\n" ∧ o.valid 17 = 0 ∧ o.valid 26 = 0 :=
  ⟨by decide, _, rfl, by decide, by decide, by decide⟩

theorem descriptor_thread_num :
    ∀ k : Fin NUM_THREADS, (descriptor k).thread_num = (k.val : Int) := by decide

/-- C10: for every grid of arbitrary integers and every one of the 27
descriptors of `main`, `check_region` ends without a fault whatever `valid[]`
holds, and the value it leaves in its slot is 0 or 1 and is the same for every
initial content of `valid[]`. -/
theorem C10_always_writes_slot (g : Grid) (k : Fin NUM_THREADS) :
    ∃ p, dispatched.params k = some p ∧ p.thread_num = (k.val : Int) ∧
      ∃ b : Int, (b = 0 ∨ b = 1) ∧
        ∀ valid0 : Board, ∃ v, check_region g p valid0 = some v ∧ v k = b := by
  refine ⟨descriptor k, params_eq k, (descriptor_thread_num k), verdicts g k, ?_, fun valid0 => ?_⟩
  · unfold verdicts
    by_cases h : Distinct19 (values g (specRegion k)) <;> simp [h]
  · exact ⟨_, check_region_descriptor g k valid0, Function.update_same _ _ _⟩

/-! ## Initial state, exit status, order and repetition -/

theorem main_eq_conclude (g : Grid) (valid0 : Board) :
    main g valid0 = (run_tasks g dispatched.created valid0).bind conclude := by
  simp only [main, dispatch_eq, conclude]
  cases run_tasks g dispatched.created valid0 <;> rfl

theorem conclude_spec (v : Board) :
    conclude v = some { valid := v, stdout := report (if ∀ k, v k ≠ 0 then 1 else 0),
                        status := 0 } := by
  simp only [conclude, aggregate_spec]

/-- C11 (counterexample): the initial content of `valid[]` is 0 in every slot,
the very value `check_region` records for an invalid region (here row 0 of the
compiled-in grid with cell (0,0) set to 2), and the reduction of a board none
of whose slots was ever written prints the INVALID line and returns status 0:
there is no unknown state and no fatal error. -/
theorem C11_counterexample :
    (∀ k, valid k = 0) ∧
    (∃ v, check_region (setCell sudoku 0 0 2) (descriptor 0) (fun _ => 1) = some v ∧
      v 0 = valid 0) ∧
    (∃ o, conclude valid = some o ∧ o.stdout = "Sudoku solution is INVALID.\n" ∧
      o.status = 0) :=
  ⟨by decide, ⟨_, rfl, by decide⟩, ⟨_, rfl, by decide, by decide⟩⟩

/-- C11 (amended): `valid[]` starts with 0 in every slot, and a board that
still holds this initial value in some slot when `main` reduces it is treated
as having an invalid region: `all_valid` is 0, the INVALID line is printed and
the exit status is 0. -/
theorem C11_unwritten_slot_reads_invalid (v : Board) (k : Fin NUM_THREADS)
    (h : v k = valid k) :
    valid k = 0 ∧ aggregate v = some 0 ∧
    conclude v = some { valid := v, stdout := "Sudoku solution is INVALID.\n", status := 0 } := by
  have hk : v k = 0 := h
  have hn : ¬ ∀ j, v j ≠ 0 := fun c => c k hk
  refine ⟨rfl, ?_, ?_⟩
  · rw [aggregate_spec, if_neg hn]
  · rw [conclude_spec, if_neg hn]; rfl

/-- Witness of C11 (amended): the board in which only slot 5 was never written. -/
theorem C11_unwritten_slot_reads_invalid_witness :
    Function.update (fun _ => (1 : Int)) (5 : Fin NUM_THREADS) 0 5 = valid 5 ∧
    aggregate (Function.update (fun _ => (1 : Int)) (5 : Fin NUM_THREADS) 0) = some 0 :=
  have h : Function.update (fun _ => (1 : Int)) (5 : Fin NUM_THREADS) 0 5 = valid 5 := by decide
  ⟨h, (C11_unwritten_slot_reads_invalid _ 5 h).2.1⟩

/-- C12: for every grid and every initial content of `valid[]`, `main` returns
exit status 0; this is so both on a grid with the VALID verdict and on a grid
with the INVALID verdict. -/
theorem C12_exit_status_zero :
    (∀ (g : Grid) (valid0 : Board), ∃ o, main g valid0 = some o ∧ o.status = 0) ∧
    (∃ o, main sudoku valid = some o ∧ o.stdout = "Sudoku solution is VALID.\n" ∧
      o.status = 0) ∧
    (∃ o, main (setCell sudoku 4 4 0) valid = some o ∧
      o.stdout = "Sudoku solution is INVALID.\n" ∧ o.status = 0) :=
  ⟨fun g valid0 => ⟨_, main_spec g valid0, rfl⟩, ⟨_, rfl, by decide, by decide⟩,
    ⟨_, rfl, by decide, by decide⟩⟩

theorem slotOf_descriptor (k : Fin NUM_THREADS) : slotOf (descriptor k) = k := by
  simp [slotOf, descriptor_slot]

theorem mem_created_iff (p : parameters) :
    p ∈ dispatched.created ↔ ∃ k, descriptor k = p := by
  rw [created_eq]
  simp

/-- Any list of descriptors taken from those `main` creates, run in the order
of the list, records the verdict of each region named in the list and leaves
the other slots alone. -/
theorem run_tasks_of_created (g : Grid) (ps : List parameters)
    (h : ∀ p ∈ ps, p ∈ dispatched.created) (valid0 : Board) :
    run_tasks g ps valid0
      = some (fun j => if j ∈ ps.map slotOf then verdicts g j else valid0 j) := by
  have e : ps = (ps.map slotOf).map descriptor := by
    rw [List.map_map]
    conv_lhs => rw [← List.map_id ps]
    apply List.map_congr_left
    intro p hp
    obtain ⟨k, hk⟩ := (mem_created_iff p).mp (h p hp)
    simp only [Function.comp, id, ← hk, slotOf_descriptor]
  conv_lhs => rw [e]
  exact run_tasks_descriptors g (ps.map slotOf) valid0

/-- C13: for every grid, every initial content of `valid[]` and every
permutation of the 27 descriptors `main` creates, running the `check_region`
tasks one after the other in the permuted order gives the same final `valid[]`
as running them in creation order 0..26, hence the same result of `main`. -/
theorem C13_order_independent (g : Grid) (valid0 : Board) (ps : List parameters)
    (h : ps.Perm dispatched.created) :
    ∃ v, run_tasks g ps valid0 = some v ∧ run_tasks g dispatched.created valid0 = some v ∧
      conclude v = main g valid0 := by
  refine ⟨verdicts g, ?_, run_tasks_created g valid0, ?_⟩
  · rw [run_tasks_of_created g ps (fun p hp => h.subset hp)]
    congr 1
    funext j
    have hj : j ∈ ps.map slotOf := by
      have : descriptor j ∈ ps := h.symm.subset ((mem_created_iff _).mpr ⟨j, rfl⟩)
      have := List.mem_map_of_mem slotOf this
      rwa [slotOf_descriptor] at this
    rw [if_pos hj]
  · rw [main_eq_conclude, run_tasks_created]; rfl

/-- Witness of C13: the 27 tasks run in reverse creation order, on the
compiled-in grid. -/
theorem C13_order_independent_witness :
    dispatched.created.reverse.Perm dispatched.created ∧
    ∃ v, run_tasks sudoku dispatched.created.reverse valid = some v ∧
      run_tasks sudoku dispatched.created valid = some v :=
  have h := List.reverse_perm dispatched.created
  ⟨h, (C13_order_independent sudoku valid _ h).imp fun _ hv => ⟨hv.1, hv.2.1⟩⟩

/-- C14: for every grid and every initial content of `valid[]`, a second whole
run of the validation, started from the `valid[]` the first run left, ends with
the same `valid[]`, the same printed verdict and the same exit status. -/
theorem C14_idempotent (g : Grid) (valid0 : Board) :
    ∃ o1 o2, main g valid0 = some o1 ∧ main g o1.valid = some o2 ∧
      o2.valid = o1.valid ∧ o2.stdout = o1.stdout ∧ o2.status = o1.status :=
  ⟨_, _, main_spec g valid0, main_spec g _, rfl, rfl, rfl⟩

/-! ## The recorded accesses -/

theorem loop_map {ε σ ε1 σ1 : Type} (fe : ε → ε1) (fs : σ → σ1)
    (body1 : Int → σ → Ctl ε σ) (body : Int → σ1 → Ctl ε1 σ1) (step : Int)
    (h : ∀ i s, (body1 i s).map fe fs = body i (fs s)) (n : Nat) :
    ∀ (i : Int) (s : σ), (loop body1 step n i s).map fe fs = loop body step n i (fs s) := by
  induction n with
  | zero => intro i s; rfl
  | succ n ih =>
    intro i s
    have hb := h i s
    simp only [loop]
    cases hb1 : body1 i s with
    | next s1 =>
      rw [hb1] at hb
      simp only [Ctl.map] at hb
      rw [← hb]
      exact ih (i + step) s1
    | exited e =>
      rw [hb1] at hb
      simp only [Ctl.map] at hb
      rw [← hb]; rfl
    | fault =>
      rw [hb1] at hb
      simp only [Ctl.map] at hb
      rw [← hb]; rfl

theorem forRange_map {ε σ ε1 σ1 : Type} (fe : ε → ε1) (fs : σ → σ1)
    (body1 : Int → σ → Ctl ε σ) (body : Int → σ1 → Ctl ε1 σ1) (lo hi step : Int)
    (h : ∀ i s, (body1 i s).map fe fs = body i (fs s)) (s : σ) :
    (forRange lo hi step body1 s).map fe fs = forRange lo hi step body (fs s) :=
  loop_map fe fs body1 body step h (trips lo hi step) lo s

theorem reject_log_map (p : parameters) (valid0 : Board) (log : List Access) :
    (reject_log p valid0 log).map Prod.fst Prod.fst = reject p valid0 := by
  unfold reject_log reject
  cases writeArr valid0 p.thread_num 0 <;> rfl

theorem visit_log_map (p : parameters) (valid0 : Board) (num : Int) (st : Seen × List Access) :
    (visit_log p valid0 num st).map Prod.fst Prod.fst = visit p valid0 num st.1 := by
  unfold visit_log visit
  by_cases hr : num < 1 ∨ num > 9
  · simp only [if_pos hr, reject_log_map]
  · simp only [if_neg hr]
    cases readArr st.1 num with
    | none => rfl
    | some s =>
      by_cases hs : s ≠ 0
      · simp only [if_pos hs, reject_log_map]
      · simp only [if_neg hs]
        cases writeArr st.1 num 1 <;> rfl

theorem cell_step_log_map (g : Grid) (p : parameters) (valid0 : Board) (r c : Int)
    (st : Seen × List Access) :
    (cell_step_log g p valid0 r c st).map Prod.fst Prod.fst = cell_step g p valid0 r c st.1 := by
  unfold cell_step_log cell_step
  cases sudokuAt g r c with
  | none => rfl
  | some num => exact visit_log_map p valid0 num _

/-- Recording the accesses does not change what `check_region` computes. -/
theorem check_region_log_fst (g : Grid) (p : parameters) (valid0 : Board) :
    (check_region_log g p valid0).map Prod.fst = check_region g p valid0 := by
  have key : ∀ (x : Ctl (Board × List Access) (Seen × List Access)) (y : Ctl Board Seen),
      x.map Prod.fst Prod.fst = y →
      (match x with
        | .next st =>
          (match writeArr valid0 p.thread_num 1 with
           | none => none
           | some v => some (v, st.2 ++ [(⟨true, .valid p.thread_num⟩ : Access)]))
        | .exited e => some e
        | .fault => none).map Prod.fst
      = (match y with
        | .next _ => writeArr valid0 p.thread_num 1
        | .exited v => some v
        | .fault => none) := by
    intro x y hxy
    subst hxy
    cases x with
    | next st => simp only [Ctl.map]; cases writeArr valid0 p.thread_num 1 <;> rfl
    | exited e => rfl
    | fault => rfl
  unfold check_region_log check_region
  apply key
  by_cases h0 : p.type = 0
  · simp only [if_pos h0]
    exact forRange_map _ _ _ _ _ _ _ (fun i s => cell_step_log_map g p valid0 p.row i s) _
  · by_cases h1 : p.type = 1
    · simp only [if_neg h0, if_pos h1]
      exact forRange_map _ _ _ _ _ _ _ (fun i s => cell_step_log_map g p valid0 i p.col s) _
    · simp only [if_neg h0, if_neg h1]
      exact forRange_map _ _ _ _ _ _ _
        (fun r s => forRange_map _ _ _ _ _ _ _
          (fun c s1 => cell_step_log_map g p valid0 r c s1) s) _

theorem scanList_inv {ε σ α : Type} (f : α → σ → Ctl ε σ) (I : σ → Prop) (E : ε → Prop)
    (hf : ∀ a s, I s → (∀ s1, f a s = .next s1 → I s1) ∧ (∀ e, f a s = .exited e → E e))
    (l : List α) :
    ∀ s, I s → (∀ s1, scanList f l s = .next s1 → I s1) ∧
      (∀ e, scanList f l s = .exited e → E e) := by
  induction l with
  | nil =>
    intro s hs
    refine ⟨fun s1 h => ?_, fun e h => ?_⟩
    · simp only [scanList] at h
      cases h; exact hs
    · simp only [scanList] at h
      cases h
  | cons a l ih =>
    intro s hs
    have ha := hf a s hs
    simp only [scanList]
    cases hfa : f a s with
    | next s1 => exact ih s1 (ha.1 s1 hfa)
    | exited e =>
      refine ⟨fun s1 h => (by cases h), fun e1 h => ?_⟩
      cases h
      exact ha.2 e hfa
    | fault => exact ⟨fun s1 h => (by cases h), fun e1 h => by cases h⟩

theorem check_region_log_eq_scanList (g : Grid) (p : parameters) (valid0 : Board) :
    check_region_log g p valid0 =
      (match scanList (fun (rc : Int × Int) st => cell_step_log g p valid0 rc.1 rc.2 st)
          (region_cells p) (fun _ => 0, []) with
       | .next st =>
         (match writeArr valid0 p.thread_num 1 with
          | none => none
          | some v => some (v, st.2 ++ [⟨true, .valid p.thread_num⟩]))
       | .exited e => some e
       | .fault => none) := by
  unfold check_region_log region_cells
  by_cases h0 : p.type = 0
  · simp only [if_pos h0, forRange_eq_scanList, scanList_map]
  · by_cases h1 : p.type = 1
    · simp only [if_neg h0, if_pos h1, forRange_eq_scanList, scanList_map]
    · simp only [if_neg h0, if_neg h1, forRange_eq_scanList, ← scanList_flatMap, scanList_map]

theorem sudokuAt_bounds (g : Grid) (r c num : Int) (h : sudokuAt g r c = some num) :
    0 ≤ r ∧ r ≤ 8 ∧ 0 ≤ c ∧ c ≤ 8 := by
  unfold sudokuAt readArr at h
  cases hr : toFin? N r with
  | none => rw [hr] at h; cases h
  | some i =>
    rw [hr] at h
    simp only [Option.map_some'] at h
    cases hc : toFin? N c with
    | none => rw [hc] at h; cases h
    | some j =>
      have e1 := toFin?_eq_some hr
      have e2 := toFin?_eq_some hc
      have := i.isLt
      have := j.isLt
      simp only [N] at *
      omega

theorem sharedWrites_append (l1 l2 : List Access) :
    sharedWrites (l1 ++ l2) = sharedWrites l1 ++ sharedWrites l2 := by
  simp [sharedWrites]

theorem writeArr_slot (valid0 : Board) (p : parameters) (k : Fin NUM_THREADS)
    (hk : p.thread_num = (k.val : Int)) (x : Int) :
    writeArr valid0 p.thread_num x = some (Function.update valid0 k x) := by
  simp [writeArr, hk, toFin?_coe]

theorem reject_log_ended (p : parameters) (valid0 : Board) (k : Fin NUM_THREADS)
    (hk : p.thread_num = (k.val : Int)) (log : List Access) (hl : Scanning k log)
    (e : Board × List Access) (h : reject_log p valid0 log = .exited e) :
    Ended k valid0 e := by
  unfold reject_log at h
  rw [writeArr_slot valid0 p k hk] at h
  cases h
  refine ⟨?_, ?_, ?_⟩
  · intro a ha
    rcases List.mem_append.mp ha with h1 | h1
    · exact hl.1 a h1
    · rw [List.mem_singleton] at h1
      subst h1
      exact ⟨rfl, hk⟩
  · show sharedWrites (log ++ _) = _
    rw [sharedWrites_append, hl.2, hk]
    rfl
  · intro j hj
    exact Function.update_noteq hj _ _

theorem visit_log_inv (p : parameters) (valid0 : Board) (k : Fin NUM_THREADS)
    (hk : p.thread_num = (k.val : Int)) (num : Int) (st : Seen × List Access)
    (hl : Scanning k st.2) :
    (∀ s1, visit_log p valid0 num st = .next s1 → Scanning k s1.2) ∧
    (∀ e, visit_log p valid0 num st = .exited e → Ended k valid0 e) := by
  unfold visit_log
  by_cases hr : num < 1 ∨ num > 9
  · simp only [if_pos hr]
    refine ⟨fun s1 h => ?_, fun e h => reject_log_ended p valid0 k hk _ hl e h⟩
    unfold reject_log at h
    rw [writeArr_slot valid0 p k hk] at h
    cases h
  · simp only [if_neg hr]
    have hnum : 1 ≤ num ∧ num ≤ 9 := by omega
    have hl1 : Scanning k (st.2 ++ [⟨false, .seen num⟩]) := by
      refine ⟨?_, ?_⟩
      · intro a ha
        rcases List.mem_append.mp ha with h1 | h1
        · exact hl.1 a h1
        · rw [List.mem_singleton] at h1
          subst h1
          exact hnum
      · rw [sharedWrites_append, hl.2]; rfl
    cases readArr st.1 num with
    | none => exact ⟨fun s1 h => (by cases h), fun e h => by cases h⟩
    | some s =>
      by_cases hs : s ≠ 0
      · simp only [if_pos hs]
        refine ⟨fun s1 h => ?_, fun e h => reject_log_ended p valid0 k hk _ hl1 e h⟩
        unfold reject_log at h
        rw [writeArr_slot valid0 p k hk] at h
        cases h
      · simp only [if_neg hs]
        cases writeArr st.1 num 1 with
        | none => exact ⟨fun s1 h => (by cases h), fun e h => by cases h⟩
        | some seen1 =>
          refine ⟨fun s1 h => ?_, fun e h => by cases h⟩
          cases h
          refine ⟨?_, ?_⟩
          · intro a ha
            rcases List.mem_append.mp ha with h1 | h1
            · exact hl.1 a h1
            · simp only [List.mem_cons, List.mem_singleton, List.not_mem_nil, or_false] at h1
              rcases h1 with h1 | h1 <;> (subst h1; exact hnum)
          · show sharedWrites (st.2 ++ _) = _
            rw [sharedWrites_append, hl.2]; rfl

theorem cell_step_log_inv (g : Grid) (p : parameters) (valid0 : Board) (k : Fin NUM_THREADS)
    (hk : p.thread_num = (k.val : Int)) (rc : Int × Int) (st : Seen × List Access)
    (hl : Scanning k st.2) :
    (∀ s1, cell_step_log g p valid0 rc.1 rc.2 st = .next s1 → Scanning k s1.2) ∧
    (∀ e, cell_step_log g p valid0 rc.1 rc.2 st = .exited e → Ended k valid0 e) := by
  unfold cell_step_log
  cases hg : sudokuAt g rc.1 rc.2 with
  | none => exact ⟨fun s1 h => (by cases h), fun e h => by cases h⟩
  | some num =>
    have hb := sudokuAt_bounds g rc.1 rc.2 num hg
    apply visit_log_inv p valid0 k hk num
    refine ⟨?_, ?_⟩
    · intro a ha
      rcases List.mem_append.mp ha with h1 | h1
      · exact hl.1 a h1
      · rw [List.mem_singleton] at h1
        subst h1
        exact ⟨rfl, hb⟩
    · show sharedWrites (st.2 ++ _) = _
      rw [sharedWrites_append, hl.2]; rfl

/-- Whatever the grid and the descriptor, a run of `check_region` that ends
has made only allowed accesses, has written outside `seen` exactly once, to its
own slot, and has left the other slots as they were. -/
theorem check_region_log_ended (g : Grid) (p : parameters) (valid0 : Board)
    (k : Fin NUM_THREADS) (hk : p.thread_num = (k.val : Int)) (e : Board × List Access)
    (h : check_region_log g p valid0 = some e) : Ended k valid0 e := by
  rw [check_region_log_eq_scanList] at h
  have hinv := scanList_inv
    (fun (rc : Int × Int) st => cell_step_log g p valid0 rc.1 rc.2 st)
    (fun st => Scanning k st.2) (Ended k valid0)
    (fun rc st hst => cell_step_log_inv g p valid0 k hk rc st hst)
    (region_cells p) (fun _ => 0, []) ⟨by simp, rfl⟩
  cases hs : scanList (fun (rc : Int × Int) st => cell_step_log g p valid0 rc.1 rc.2 st)
      (region_cells p) (fun _ => 0, []) with
  | next st =>
    rw [hs] at h
    simp only [writeArr_slot valid0 p k hk] at h
    cases h
    have hst := hinv.1 st hs
    refine ⟨?_, ?_, ?_⟩
    · intro a ha
      rcases List.mem_append.mp ha with h1 | h1
      · exact hst.1 a h1
      · rw [List.mem_singleton] at h1
        subst h1
        exact ⟨rfl, hk⟩
    · show sharedWrites (st.2 ++ _) = _
      rw [sharedWrites_append, hst.2, hk]; rfl
    · intro j hj
      exact Function.update_noteq hj _ _
  | exited e1 =>
    rw [hs] at h
    cases h
    exact hinv.2 e hs
  | fault =>
    rw [hs] at h
    cases h

theorem check_region_log_of_some (g : Grid) (p : parameters) (valid0 v : Board)
    (h : check_region g p valid0 = some v) :
    ∃ log, check_region_log g p valid0 = some (v, log) := by
  have hm := check_region_log_fst g p valid0
  rw [h] at hm
  cases hc : check_region_log g p valid0 with
  | none => rw [hc] at hm; cases hm
  | some e =>
    rw [hc] at hm
    simp only [Option.map_some', Option.some.injEq] at hm
    exact ⟨e.2, by rw [← hm]⟩

theorem check_region_of_log (g : Grid) (p : parameters) (valid0 v : Board) (log : List Access)
    (h : check_region_log g p valid0 = some (v, log)) : check_region g p valid0 = some v := by
  rw [← check_region_log_fst, h]; rfl

/-- C16: for every grid, every content of `valid[]` and every descriptor whose
`thread_num` is a slot index `k` in 0..26, a run of `check_region` leaves every
slot `valid[j]`, `j != k`, as it was; the only write it makes outside its local
array `seen` is the one to `valid[k]`, and every access it makes to the grid
`sudoku[][]` is a read. -/
theorem C16_frame (g : Grid) (valid0 : Board) (p : parameters) (k : Fin NUM_THREADS)
    (hk : p.thread_num = (k.val : Int)) :
    (∀ v, check_region g p valid0 = some v → ∀ j, j ≠ k → v j = valid0 j) ∧
    (∀ v log, check_region_log g p valid0 = some (v, log) →
      check_region g p valid0 = some v ∧
      sharedWrites log = [.valid (k.val : Int)] ∧
      ∀ a ∈ log, ∀ r c, a.loc = .sudoku r c → a.write = false) := by
  refine ⟨fun v hv j hj => ?_, fun v log hl => ?_⟩
  · obtain ⟨log, hl⟩ := check_region_log_of_some g p valid0 v hv
    exact (check_region_log_ended g p valid0 k hk _ hl).2.2 j hj
  · have he := check_region_log_ended g p valid0 k hk _ hl
    refine ⟨check_region_of_log g p valid0 v log hl, he.2.1, fun a ha r c hloc => ?_⟩
    have := he.1 a ha
    unfold Allowed at this
    rw [hloc] at this
    exact this.1

/-- Witness of C16: the descriptor of row 0 run on the compiled-in grid from
the initial `valid[]`. -/
theorem C16_frame_witness :
    (descriptor 0).thread_num = ((0 : Fin NUM_THREADS).val : Int) ∧
    ∃ v, check_region sudoku (descriptor 0) valid = some v ∧
      ∀ j, j ≠ (0 : Fin NUM_THREADS) → v j = valid j :=
  have hk : (descriptor 0).thread_num = ((0 : Fin NUM_THREADS).val : Int) := by decide
  ⟨hk, _, check_region_descriptor sudoku 0 valid,
    (C16_frame sudoku valid (descriptor 0) 0 hk).1 _ (check_region_descriptor sudoku 0 valid)⟩

/-- C18: for every grid of arbitrary integers, every content of `valid[]` and
every one of the 27 descriptors of `main`, `check_region` ends without an
out-of-bounds access, and every array access it makes is in bounds: a grid
access `sudoku[r][c]` has `0 <= r, c <= 8`, `seen` is indexed only with
`1 <= num <= 9`, and the slot written is `valid[k]` with `k` the descriptor's
`thread_num`, in 0..26. -/
theorem C18_accesses_in_bounds (g : Grid) (valid0 : Board) (k : Fin NUM_THREADS) :
    ∃ p v log, dispatched.params k = some p ∧
      check_region_log g p valid0 = some (v, log) ∧
      check_region g p valid0 = some v ∧
      ∀ a ∈ log, (match a.loc with
        | .sudoku r c => 0 ≤ r ∧ r ≤ 8 ∧ 0 ≤ c ∧ c ≤ 8
        | .seen i => 1 ≤ i ∧ i ≤ 9
        | .valid j => j = p.thread_num ∧ 0 ≤ j ∧ j ≤ 26) := by
  obtain ⟨log, hl⟩ := check_region_log_of_some g (descriptor k) valid0 _
    (check_region_descriptor g k valid0)
  refine ⟨descriptor k, _, log, params_eq k, hl, check_region_descriptor g k valid0,
    fun a ha => ?_⟩
  have he := (check_region_log_ended g (descriptor k) valid0 k (descriptor_thread_num k)
    _ hl).1 a ha
  unfold Allowed at he
  cases hloc : a.loc with
  | sudoku r c => rw [hloc] at he; exact he.2
  | seen i => rw [hloc] at he; exact he
  | valid j =>
    rw [hloc] at he
    have := k.isLt
    simp only [NUM_THREADS] at this
    refine ⟨by rw [descriptor_thread_num]; exact he.2, ?_, ?_⟩ <;> omega

/-! ## The order of the scan and its early exit -/

theorem gridReads_append (l1 l2 : List Access) :
    gridReads (l1 ++ l2) = gridReads l1 ++ gridReads l2 := by
  simp [gridReads, List.filterMap_append]

theorem marks_snoc (seen : Seen) (e : List Int) (v : Int) (i : Fin (N + 1))
    (hi : toFin? (N + 1) v = some i) (h : Marks seen e) :
    Marks (Function.update seen i 1) (e ++ [v]) := by
  intro w h1 h9
  rw [readArr_update seen i 1 w v hi]
  by_cases hw : w = v
  · simp [hw]
  · rw [if_neg hw, h w h1 h9]
    simp [hw]

/-- The scan of the in-grid cells `cs` from a state whose `seen` marks the
values `e`: it goes through when no value offends, and otherwise leaves with
slot `k` set to 0 right after reading the first offending cell. -/
theorem scanList_log_cells (g : Grid) (p : parameters) (valid0 : Board) (k : Fin NUM_THREADS)
    (hk : p.thread_num = (k.val : Int)) (cs : List (Fin N × Fin N)) :
    ∀ (e : List Int) (st : Seen × List Access), Marks st.1 e →
      (firstOffender e (values g cs) = none →
        ∃ st1, scanList (fun (rc : Int × Int) s => cell_step_log g p valid0 rc.1 rc.2 s)
            (cs.map toIntPair) st = .next st1 ∧
          gridReads st1.2 = gridReads st.2 ++ cs.map toIntPair) ∧
      (∀ i, firstOffender e (values g cs) = some i →
        ∃ e1, scanList (fun (rc : Int × Int) s => cell_step_log g p valid0 rc.1 rc.2 s)
            (cs.map toIntPair) st = .exited e1 ∧
          e1.1 = Function.update valid0 k 0 ∧
          gridReads e1.2 = gridReads st.2 ++ (cs.take (i + 1)).map toIntPair) := by
  induction cs with
  | nil =>
    intro e st _
    refine ⟨fun _ => ⟨st, rfl, by simp⟩, fun i hi => ?_⟩
    simp [values, firstOffender] at hi
  | cons c cs ih =>
    intro e st hm
    have hvals : values g (c :: cs) = g c.1 c.2 :: values g cs := rfl
    have hstep : ∀ s, cell_step_log g p valid0 (toIntPair c).1 (toIntPair c).2 s
        = visit_log p valid0 (g c.1 c.2)
            (s.1, s.2 ++ [⟨false, .sudoku (toIntPair c).1 (toIntPair c).2⟩]) := by
      intro s
      simp only [cell_step_log, sudokuAt_coe]
    have hread : gridReads (st.2 ++ [(⟨false, .sudoku (toIntPair c).1 (toIntPair c).2⟩ : Access)])
        = gridReads st.2 ++ [toIntPair c] := by
      rw [gridReads_append]; rfl
    have hrej : ∀ log, reject_log p valid0 log
        = .exited (Function.update valid0 k 0, log ++ [⟨true, .valid p.thread_num⟩]) := by
      intro log
      simp only [reject_log, writeArr_slot valid0 p k hk]
    simp only [hvals, firstOffender, List.map_cons, scanList, hstep]
    by_cases hr : g c.1 c.2 < 1 ∨ g c.1 c.2 > 9
    · have hoff : g c.1 c.2 < 1 ∨ g c.1 c.2 > 9 ∨ g c.1 c.2 ∈ e := by tauto
      simp only [if_pos hoff, visit_log, if_pos hr, hrej]
      refine ⟨fun h => (by cases h), fun i hi => ?_⟩
      cases hi
      refine ⟨_, rfl, rfl, ?_⟩
      simp only [gridReads_append, hread, List.take_succ_cons, List.take_zero, List.map_cons,
        List.map_nil]
      simp [gridReads]
    · have h19 : 1 ≤ g c.1 c.2 ∧ g c.1 c.2 ≤ 9 := by omega
      obtain ⟨ix, hix⟩ := toFin?_of_range (N + 1) (g c.1 c.2) (by omega)
        (by simp only [N]; omega)
      have hrd := hm (g c.1 c.2) h19.1 h19.2
      by_cases hmem : g c.1 c.2 ∈ e
      · have hoff : g c.1 c.2 < 1 ∨ g c.1 c.2 > 9 ∨ g c.1 c.2 ∈ e := by tauto
        rw [if_pos hmem] at hrd
        simp only [if_pos hoff, visit_log, if_neg hr, hrd, hrej]
        refine ⟨fun h => (by cases h), fun i hi => ?_⟩
        cases hi
        refine ⟨_, rfl, rfl, ?_⟩
        simp only [gridReads_append, hread, List.take_succ_cons, List.take_zero, List.map_cons,
          List.map_nil]
        simp [gridReads]
      · have hoff : ¬ (g c.1 c.2 < 1 ∨ g c.1 c.2 > 9 ∨ g c.1 c.2 ∈ e) := by tauto
        rw [if_neg hmem] at hrd
        have hw : writeArr st.1 (g c.1 c.2) 1 = some (Function.update st.1 ix 1) := by
          simp [writeArr, hix]
        simp only [if_neg hoff, visit_log, if_neg hr, hrd, hw]
        simp only [ne_eq, not_true_eq_false, if_false]
        have hm1 := marks_snoc st.1 e (g c.1 c.2) ix hix hm
        have hrd1 : gridReads (st.2 ++ [(⟨false, .sudoku (toIntPair c).1 (toIntPair c).2⟩ : Access)]
              ++ [⟨false, .seen (g c.1 c.2)⟩, ⟨true, .seen (g c.1 c.2)⟩])
            = gridReads st.2 ++ [toIntPair c] := by
          rw [gridReads_append, hread]
          simp [gridReads]
        have ih1 := ih (e ++ [g c.1 c.2])
          (Function.update st.1 ix 1,
            st.2 ++ [(⟨false, .sudoku (toIntPair c).1 (toIntPair c).2⟩ : Access)]
              ++ [⟨false, .seen (g c.1 c.2)⟩, ⟨true, .seen (g c.1 c.2)⟩]) hm1
        refine ⟨fun h => ?_, fun i hi => ?_⟩
        · have hn : firstOffender (e ++ [g c.1 c.2]) (values g cs) = none := by
            cases hf : firstOffender (e ++ [g c.1 c.2]) (values g cs) with
            | none => rfl
            | some j =>
              change Option.map (fun i => i + 1)
                (firstOffender (e ++ [g c.1 c.2]) (values g cs)) = none at h
              rw [hf] at h; cases h
          obtain ⟨st1, h1, h2⟩ := ih1.1 hn
          refine ⟨st1, h1, ?_⟩
          rw [h2, hrd1]
          simp
        · change Option.map (fun i => i + 1)
            (firstOffender (e ++ [g c.1 c.2]) (values g cs)) = some i at hi
          cases hf : firstOffender (e ++ [g c.1 c.2]) (values g cs) with
          | none => rw [hf] at hi; cases hi
          | some j =>
            rw [hf] at hi
            simp only [Option.map_some', Option.some.injEq] at hi
            obtain ⟨e1, h1, h2, h3⟩ := ih1.2 j hf
            refine ⟨e1, h1, h2, ?_⟩
            rw [h3, hrd1, ← hi]
            simp

theorem firstOffender_none (vals : List Int) :
    ∀ e : List Int, firstOffender e vals = none →
      ∀ i, i < vals.length →
        ¬ (vals.getD i 0 < 1 ∨ vals.getD i 0 > 9 ∨ vals.getD i 0 ∈ e ++ vals.take i) := by
  induction vals with
  | nil => intro e _ i hi; simp at hi
  | cons v vs ih =>
    intro e h i hi
    simp only [firstOffender] at h
    by_cases hoff : v < 1 ∨ v > 9 ∨ v ∈ e
    · rw [if_pos hoff] at h; cases h
    · rw [if_neg hoff] at h
      have hn : firstOffender (e ++ [v]) vs = none := by
        cases hf : firstOffender (e ++ [v]) vs with
        | none => rfl
        | some j => rw [hf] at h; cases h
      cases i with
      | zero => simpa using hoff
      | succ j =>
        have := ih (e ++ [v]) hn j (by simpa using hi)
        simpa using this

theorem firstOffender_some (vals : List Int) :
    ∀ (e : List Int) (i : Nat), firstOffender e vals = some i →
      i < vals.length ∧
      (vals.getD i 0 < 1 ∨ vals.getD i 0 > 9 ∨ vals.getD i 0 ∈ e ++ vals.take i) ∧
      ∀ j, j < i →
        ¬ (vals.getD j 0 < 1 ∨ vals.getD j 0 > 9 ∨ vals.getD j 0 ∈ e ++ vals.take j) := by
  induction vals with
  | nil => intro e i h; simp [firstOffender] at h
  | cons v vs ih =>
    intro e i h
    simp only [firstOffender] at h
    by_cases hoff : v < 1 ∨ v > 9 ∨ v ∈ e
    · rw [if_pos hoff] at h
      cases h
      refine ⟨by simp, by simpa using hoff, fun j hj => by omega⟩
    · rw [if_neg hoff] at h
      cases hf : firstOffender (e ++ [v]) vs with
      | none => rw [hf] at h; cases h
      | some m =>
        rw [hf] at h
        simp only [Option.map_some', Option.some.injEq] at h
        subst h
        obtain ⟨h1, h2, h3⟩ := ih (e ++ [v]) m hf
        refine ⟨by simpa using h1, by simpa using h2, fun j hj => ?_⟩
        cases j with
        | zero => simpa using hoff
        | succ j =>
          have := h3 j (by omega)
          simpa using this

theorem firstOffender_congr (vals : List Int) :
    ∀ (e vals1 : List Int) (i : Nat), firstOffender e vals = some i →
      vals1.take (i + 1) = vals.take (i + 1) → firstOffender e vals1 = some i := by
  induction vals with
  | nil => intro e vals1 i h; simp [firstOffender] at h
  | cons v vs ih =>
    intro e vals1 i h ht
    cases vals1 with
    | nil => simp at ht
    | cons w ws =>
      simp only [List.take_succ_cons, List.cons.injEq] at ht
      obtain ⟨hw, hws⟩ := ht
      subst hw
      simp only [firstOffender] at h ⊢
      by_cases hoff : w < 1 ∨ w > 9 ∨ w ∈ e
      · rw [if_pos hoff] at h ⊢; exact h
      · rw [if_neg hoff] at h ⊢
        cases hf : firstOffender (e ++ [w]) vs with
        | none => rw [hf] at h; cases h
        | some m =>
          rw [hf] at h
          simp only [Option.map_some', Option.some.injEq] at h
          subst h
          rw [ih (e ++ [w]) ws m hf hws]
          rfl

theorem marks_zero : Marks (fun _ => 0) [] := by
  intro v h1 h9
  obtain ⟨i, hi⟩ := toFin?_of_range (N + 1) v (by omega) (by simp only [N]; omega)
  simp [readArr, hi]

/-- The run of `check_region` for the descriptor of region `k`, in terms of
the first offending value of the region. -/
theorem check_region_log_descriptor (g : Grid) (valid0 : Board) (k : Fin NUM_THREADS) :
    (firstOffender [] (values g (specRegion k)) = none →
      ∃ log, check_region_log g (descriptor k) valid0 = some (Function.update valid0 k 1, log) ∧
        gridReads log = (specRegion k).map toIntPair) ∧
    (∀ i, firstOffender [] (values g (specRegion k)) = some i →
      ∃ log, check_region_log g (descriptor k) valid0 = some (Function.update valid0 k 0, log) ∧
        gridReads log = ((specRegion k).take (i + 1)).map toIntPair) := by
  have hk := descriptor_thread_num k
  have hsc := scanList_log_cells g (descriptor k) valid0 k hk (specRegion k) []
    (fun _ => 0, []) marks_zero
  rw [check_region_log_eq_scanList, descriptor_cells]
  refine ⟨fun h => ?_, fun i h => ?_⟩
  · obtain ⟨st1, h1, h2⟩ := hsc.1 h
    rw [h1]
    simp only [writeArr_slot valid0 (descriptor k) k hk]
    refine ⟨_, rfl, ?_⟩
    rw [gridReads_append, h2]
    simp [gridReads]
  · obtain ⟨e1, h1, h2, h3⟩ := hsc.2 i h
    rw [h1]
    refine ⟨e1.2, ?_, ?_⟩
    · rw [← h2]
    · rw [h3]; simp [gridReads]

/-- C17: for every grid, every content of `valid[]` and every one of the 27
descriptors, `check_region` reads the cells of its region in descriptor order
and reads exactly the first `n` of them: either no cell offends (no value is
outside 1..9 or equal to the value of an earlier cell), all nine cells are
read and 1 is recorded; or 0 is recorded and the last cell read, cell `n-1`,
is the first that offends. Any grid that agrees on the cells read gives the
same recorded outcome, so changing cells after the first offending one never
changes it. -/
theorem C17_short_circuit (g : Grid) (valid0 : Board) (k : Fin NUM_THREADS) :
    ∃ v log n, check_region_log g (descriptor k) valid0 = some (v, log) ∧
      check_region g (descriptor k) valid0 = some v ∧
      gridReads log = (region_cells (descriptor k)).take n ∧
      ((v k = 1 ∧ n = 9 ∧ ∀ i, i < 9 → ¬ Offends (values g (specRegion k)) i) ∨
       (v k = 0 ∧ 1 ≤ n ∧ n ≤ 9 ∧ Offends (values g (specRegion k)) (n - 1) ∧
         ∀ i, i < n - 1 → ¬ Offends (values g (specRegion k)) i)) ∧
      ∀ g1 : Grid, (∀ rc ∈ (specRegion k).take n, g1 rc.1 rc.2 = g rc.1 rc.2) →
        check_region g1 (descriptor k) valid0 = some v := by
  have hlen : (values g (specRegion k)).length = 9 := by
    rw [values_length, specRegion_length]
  have hcells := descriptor_cells k
  cases hf : firstOffender [] (values g (specRegion k)) with
  | none =>
    obtain ⟨log, h1, h2⟩ := (check_region_log_descriptor g valid0 k).1 hf
    refine ⟨_, log, 9, h1, check_region_of_log _ _ _ _ _ h1, ?_, Or.inl ⟨?_, rfl, ?_⟩, ?_⟩
    · rw [h2, hcells, List.take_of_length_le]
      simp [specRegion_length]
    · exact Function.update_same _ _ _
    · intro i hi
      have := firstOffender_none _ [] hf i (by omega)
      simpa [Offends] using this
    · intro g1 hg1
      rw [List.take_of_length_le (by simp [specRegion_length])] at hg1
      have hv : values g1 (specRegion k) = values g (specRegion k) := by
        unfold values
        exact List.map_congr_left hg1
      obtain ⟨log1, h3, _⟩ := (check_region_log_descriptor g1 valid0 k).1 (by rw [hv]; exact hf)
      exact check_region_of_log _ _ _ _ _ h3
  | some i =>
    obtain ⟨log, h1, h2⟩ := (check_region_log_descriptor g valid0 k).2 i hf
    obtain ⟨hi, hoff, hbefore⟩ := firstOffender_some _ [] i hf
    refine ⟨_, log, i + 1, h1, check_region_of_log _ _ _ _ _ h1, ?_,
      Or.inr ⟨?_, by omega, by omega, ?_, ?_⟩, ?_⟩
    · rw [h2, hcells, List.map_take]
    · exact Function.update_same _ _ _
    · simpa [Offends] using hoff
    · intro j hj
      have := hbefore j (by omega)
      simpa [Offends] using this
    · intro g1 hg1
      have hv : (values g1 (specRegion k)).take (i + 1)
          = (values g (specRegion k)).take (i + 1) := by
        unfold values
        rw [← List.map_take, ← List.map_take]
        exact List.map_congr_left hg1
      have hf1 := firstOffender_congr _ [] _ i hf hv
      obtain ⟨log1, h3, _⟩ := (check_region_log_descriptor g1 valid0 k).2 i hf1
      exact check_region_of_log _ _ _ _ _ h3

/-- Witness of C17: row 0 of the compiled-in grid with cell (0,1) set to 6, the
value of cell (0,0); the grid with cell (0,5) changed as well agrees on the two
cells read and gives the same outcome. -/
theorem C17_short_circuit_witness :
    ∃ v log, check_region_log (setCell sudoku 0 1 6) (descriptor 0) valid = some (v, log) ∧
      gridReads log = [(0, 0), (0, 1)] ∧ v 0 = 0 ∧
      check_region (setCell (setCell sudoku 0 1 6) 0 5 1) (descriptor 0) valid = some v := by
  obtain ⟨v, log, n, h1, h2, h3, h4, h5⟩ :=
    C17_short_circuit (setCell sudoku 0 1 6) valid 0
  have hlog : check_region_log (setCell sudoku 0 1 6) (descriptor 0) valid
      = some (Function.update valid 0 0,
          [⟨false, .sudoku 0 0⟩, ⟨false, .seen 6⟩, ⟨true, .seen 6⟩, ⟨false, .sudoku 0 1⟩,
           ⟨false, .seen 6⟩, ⟨true, .valid 0⟩]) := by decide
  rw [hlog] at h1
  simp only [Option.some.injEq, Prod.mk.injEq] at h1
  obtain ⟨hv, hl⟩ := h1
  subst hv hl
  have hn : n = 2 := by
    have hr : gridReads [(⟨false, .sudoku 0 0⟩ : Access), ⟨false, .seen 6⟩, ⟨true, .seen 6⟩,
        ⟨false, .sudoku 0 1⟩, ⟨false, .seen 6⟩, ⟨true, .valid 0⟩] = [(0, 0), (0, 1)] := by decide
    rw [hr] at h3
    have := congrArg List.length h3
    have hc : (region_cells (descriptor 0)).length = 9 := by decide
    rw [List.length_take, hc] at this
    simp at this
    omega
  subst hn
  refine ⟨_, _, hlog, by decide, by decide, h5 _ ?_⟩
  decide

/-! ## Threads of the interleaving model -/

theorem thread_total_finished (g : Grid) (p : parameters) (v : Board) (n : Nat) :
    (thread_total g p)^[n] (.finished, v) = (.finished, v) := by
  induction n with
  | zero => rfl
  | succ n ih => rw [Function.iterate_succ_apply]; exact ih

theorem thread_total_crashed (g : Grid) (p : parameters) (v : Board) (n : Nat) :
    (thread_total g p)^[n] (.crashed, v) = (.crashed, v) := by
  induction n with
  | zero => rfl
  | succ n ih => rw [Function.iterate_succ_apply]; exact ih

theorem thread_total_rejecting (g : Grid) (p : parameters) (v : Board) (n : Nat) :
    (thread_total g p)^[n + 1] (.rejecting, v)
      = (match writeArr v p.thread_num 0 with
         | none => (.crashed, v)
         | some v1 => (.finished, v1)) := by
  rw [Function.iterate_succ_apply]
  simp only [thread_total, thread_step]
  cases writeArr v p.thread_num 0 with
  | none => exact thread_total_crashed g p v n
  | some v1 => exact thread_total_finished g p v1 n

/-- A thread of the model run on its own from any point of its scan ends as
the scan of `check_region` does. -/
theorem thread_alone_scan (g : Grid) (p : parameters) (valid0 : Board)
    (todo : List (Int × Int)) :
    ∀ seen : Seen, (thread_total g p)^[todo.length + 1] (.scanning todo seen, valid0)
      = (match scanList (fun (rc : Int × Int) s => cell_step g p valid0 rc.1 rc.2 s) todo seen with
         | .next _ =>
           (match writeArr valid0 p.thread_num 1 with
            | none => (.crashed, valid0)
            | some v => (.finished, v))
         | .exited v => (.finished, v)
         | .fault => (.crashed, valid0)) := by
  induction todo with
  | nil =>
    intro seen
    simp only [List.length_nil, Nat.zero_add, Function.iterate_one, thread_total, thread_step,
      scanList]
    cases writeArr valid0 p.thread_num 1 <;> rfl
  | cons rc todo ih =>
    intro seen
    rw [List.length_cons, Function.iterate_succ_apply]
    simp only [scanList, cell_step, thread_total, thread_step]
    cases sudokuAt g rc.1 rc.2 with
    | none => exact thread_total_crashed g p valid0 _
    | some num =>
      simp only [visit]
      by_cases hr : num < 1 ∨ num > 9
      · simp only [if_pos hr, reject]
        rw [thread_total_rejecting]
        cases writeArr valid0 p.thread_num 0 <;> rfl
      · simp only [if_neg hr]
        cases readArr seen num with
        | none => exact thread_total_crashed g p valid0 _
        | some s =>
          by_cases hs : s ≠ 0
          · simp only [if_pos hs, reject]
            rw [thread_total_rejecting]
            cases writeArr valid0 p.thread_num 0 <;> rfl
          · simp only [if_neg hs]
            cases writeArr seen num 1 with
            | none => exact thread_total_crashed g p valid0 _
            | some seen1 => exact ih seen1

/-- A thread of the model run on its own from its start ends with the board
`check_region` returns, and stops on an out-of-bounds access exactly when
`check_region` does. -/
theorem thread_alone (g : Grid) (p : parameters) (valid0 : Board) :
    (thread_total g p)^[(region_cells p).length + 1] (thread_start p, valid0)
      = (match check_region g p valid0 with
         | some v => (.finished, v)
         | none => (.crashed, valid0)) := by
  rw [check_region_eq_scanList]
  unfold thread_start
  rw [thread_alone_scan]
  cases scanList (fun (rc : Int × Int) s => cell_step g p valid0 rc.1 rc.2 s)
      (region_cells p) (fun _ => 0) with
  | next s => simp only; cases writeArr valid0 p.thread_num 1 <;> rfl
  | exited v => rfl
  | fault => rfl

theorem region_cells_descriptor_length :
    ∀ k : Fin NUM_THREADS, (region_cells (descriptor k)).length = 9 := by decide

theorem threadOK_start (g : Grid) (k : Fin NUM_THREADS) :
    ThreadOK g k (thread_start (descriptor k)) := by
  intro v
  have h := thread_alone g (descriptor k) v
  rw [region_cells_descriptor_length, check_region_descriptor] at h
  exact h

theorem threadOK_total (g : Grid) (k : Fin NUM_THREADS) (t t1 : Thread)
    (hok : ThreadOK g k t)
    (hs : ∀ w : Board, thread_total g (descriptor k) (t, w) = (t1, w)) :
    ThreadOK g k t1 := by
  intro w
  rw [← hs w, ← Function.iterate_succ_apply, Function.iterate_succ_apply', hok w]
  rfl

/-- A step of thread `k` from a state `ThreadOK`: either it reads a cell inside
the grid, changes no slot and is `ThreadOK` again, or it ends the thread with
the write of the verdict of region `k` to `valid[k]`. -/
theorem thread_step_ok (g : Grid) (k : Fin NUM_THREADS) (t : Thread) (v : Board)
    (hok : ThreadOK g k t) (r : Thread × Board × Access)
    (hs : thread_step g (descriptor k) v t = some r) :
    (r.1 ≠ .finished ∧ ThreadOK g k r.1 ∧ r.2.1 = v ∧
      ∃ i j : Int, r.2.2 = ⟨false, .sudoku i j⟩ ∧ 0 ≤ i ∧ i ≤ 8 ∧ 0 ≤ j ∧ j ≤ 8) ∨
    (r.1 = .finished ∧ r.2.1 = Function.update v k (verdicts g k) ∧
      r.2.2 = ⟨true, .valid (k.val : Int)⟩) := by
  have hk := descriptor_thread_num k
  have hwrite : ∀ (b : Int) (t0 : Thread),
      (∀ w : Board, thread_total g (descriptor k) (t0, w) = (.finished, Function.update w k b)) →
      ThreadOK g k t0 → b = verdicts g k := by
    intro b t0 h0 hok0
    have h1 := hok0 v
    rw [Function.iterate_succ_apply, h0 v, thread_total_finished] at h1
    have h2 := congrFun (congrArg Prod.snd h1) k
    simpa using h2
  cases t with
  | finished => cases hs
  | crashed => cases hs
  | rejecting =>
    right
    have hb := hwrite 0 .rejecting
      (fun w => by simp only [thread_total, thread_step, writeArr_slot w _ k hk]) hok
    simp only [thread_step, writeArr_slot v _ k hk, Option.some.injEq] at hs
    subst hs
    exact ⟨rfl, by rw [hb], by rw [hk]⟩
  | scanning todo seen =>
    cases todo with
    | nil =>
      right
      have hb := hwrite 1 (.scanning [] seen)
        (fun w => by simp only [thread_total, thread_step, writeArr_slot w _ k hk]) hok
      simp only [thread_step, writeArr_slot v _ k hk, Option.some.injEq] at hs
      subst hs
      exact ⟨rfl, by rw [hb], by rw [hk]⟩
    | cons rc todo =>
      left
      simp only [thread_step, Option.some.injEq] at hs
      have hcr : ¬ ThreadOK g k .crashed := by
        intro h
        have := h v
        rw [thread_total_crashed] at this
        cases this
      have hstep : ∀ (t1 : Thread),
          (∀ w : Board, thread_total g (descriptor k) (.scanning (rc :: todo) seen, w) = (t1, w)) →
          ThreadOK g k t1 := fun t1 h => threadOK_total g k _ t1 hok h
      cases hg : sudokuAt g rc.1 rc.2 with
      | none =>
        exfalso
        exact hcr (hstep .crashed (fun w => by simp only [thread_total, thread_step, hg]))
      | some num =>
        have hb := sudokuAt_bounds g rc.1 rc.2 num hg
        rw [hg] at hs
        simp only at hs
        by_cases hr : num < 1 ∨ num > 9
        · have h1 := hstep .rejecting
            (fun w => by simp only [thread_total, thread_step, hg, if_pos hr])
          rw [if_pos hr] at hs
          subst hs
          exact ⟨by simp, h1, rfl, _, _, rfl, hb⟩
        · rw [if_neg hr] at hs
          cases hrd : readArr seen num with
          | none =>
            exfalso
            exact hcr (hstep .crashed
              (fun w => by simp only [thread_total, thread_step, hg, if_neg hr, hrd]))
          | some s0 =>
            rw [hrd] at hs
            simp only at hs
            by_cases hz : s0 ≠ 0
            · have h1 := hstep .rejecting
                (fun w => by simp only [thread_total, thread_step, hg, if_neg hr, hrd, if_pos hz])
              rw [if_pos hz] at hs
              subst hs
              exact ⟨by simp, h1, rfl, _, _, rfl, hb⟩
            · rw [if_neg hz] at hs
              cases hw : writeArr seen num 1 with
              | none =>
                exfalso
                exact hcr (hstep .crashed
                  (fun w => by
                    simp only [thread_total, thread_step, hg, if_neg hr, hrd, if_neg hz, hw]))
              | some seen1 =>
                have h1 := hstep (.scanning todo seen1)
                  (fun w => by
                    simp only [thread_total, thread_step, hg, if_neg hr, hrd, if_neg hz, hw])
                rw [hw] at hs
                simp only at hs
                subst hs
                exact ⟨by simp, h1, rfl, _, _, rfl, hb⟩

/-! ## The invariant of the interleaving model -/

theorem inv_start (g : Grid) (valid0 : Board) : Inv g valid0 (Sys.start valid0) where
  h_fresh := fun _ _ => rfl
  h_ended := fun k h => by simp [Sys.start] at h
  h_live := fun k t h => by simp [Sys.start] at h
  h_pc := by
    simp only [PcInv, Sys.start]
    exact ⟨Nat.zero_le _, fun k => by simp, trivial⟩

theorem thread_start_ne_finished (p : parameters) : thread_start p ≠ .finished := by
  intro h; cases h

theorem inv_main_step (g : Grid) (valid0 : Board) (s : Sys) (r : Sys × Option Access)
    (hi : Inv g valid0 s) (hs : main_step s = some r) : Inv g valid0 r.1 := by
  have hpcinv := hi.h_pc
  unfold PcInv at hpcinv
  unfold main_step at hs
  cases hpc : s.pc with
  | creating n =>
    rw [hpc] at hs hpcinv
    simp only at hs hpcinv
    obtain ⟨hn, hthr, hout⟩ := hpcinv
    by_cases h : n < NUM_THREADS
    · rw [dif_pos h, params_eq] at hs
      simp only [Option.some.injEq] at hs
      subst hs
      have hnone : s.threads ⟨n, h⟩ = none := by
        by_contra hc
        have := (hthr ⟨n, h⟩).mpr hc
        simp at this
      refine ⟨fun k hk => ?_, fun k hk => ?_, fun k t hk ht => ?_, ?_⟩
      · by_cases e : k = ⟨n, h⟩
        · subst e; simp at hk
        · simp only [Function.update_noteq e] at hk
          exact hi.h_fresh k hk
      · by_cases e : k = ⟨n, h⟩
        · subst e
          simp only [Function.update_same, Option.some.injEq] at hk
          exact absurd hk (thread_start_ne_finished _)
        · simp only [Function.update_noteq e] at hk
          exact hi.h_ended k hk
      · by_cases e : k = ⟨n, h⟩
        · subst e
          simp only [Function.update_same, Option.some.injEq] at hk
          subst hk
          exact ⟨threadOK_start g _, hi.h_fresh _ hnone⟩
        · simp only [Function.update_noteq e] at hk
          exact hi.h_live k t hk ht
      · simp only [PcInv]
        refine ⟨h, fun k => ?_, hout⟩
        by_cases e : k = ⟨n, h⟩
        · subst e; simp
        · simp only [Function.update_noteq e, ← hthr k]
          have : k.val ≠ n := fun c => e (Fin.ext c)
          omega
    · rw [dif_neg h] at hs
      simp only [Option.some.injEq] at hs
      subst hs
      refine ⟨hi.h_fresh, hi.h_ended, hi.h_live, ?_⟩
      simp only [PcInv]
      refine ⟨Nat.zero_le _, fun k => (hthr k).mp ?_, fun k hk => absurd hk (Nat.not_lt_zero _),
        hout⟩
      have := k.isLt
      omega
  | joining n =>
    rw [hpc] at hs hpcinv
    simp only at hs hpcinv
    obtain ⟨hn, hthr, hfin, hout⟩ := hpcinv
    by_cases h : n < NUM_THREADS
    · rw [dif_pos h] at hs
      cases ht : s.threads ⟨n, h⟩ with
      | none => rw [ht] at hs; cases hs
      | some t =>
        rw [ht] at hs
        cases t with
        | finished =>
          simp only [Option.some.injEq] at hs
          subst hs
          refine ⟨hi.h_fresh, hi.h_ended, hi.h_live, ?_⟩
          simp only [PcInv]
          refine ⟨h, hthr, fun k hk => ?_, hout⟩
          by_cases e : k.val = n
          · have : k = ⟨n, h⟩ := Fin.ext e
            rw [this]; exact ht
          · exact hfin k (by omega)
        | scanning todo seen => cases hs
        | rejecting => cases hs
        | crashed => cases hs
    · rw [dif_neg h] at hs
      simp only [Option.some.injEq] at hs
      subst hs
      refine ⟨hi.h_fresh, hi.h_ended, hi.h_live, ?_⟩
      simp only [PcInv]
      refine ⟨Nat.zero_le _, fun k => hfin k ?_, fun k hk => absurd hk (Nat.not_lt_zero _), hout⟩
      have := k.isLt
      omega
  | aggregating i =>
    rw [hpc] at hs hpcinv
    simp only at hs hpcinv
    obtain ⟨hn, hfin, hnz, hout⟩ := hpcinv
    by_cases h : i < NUM_THREADS
    · rw [dif_pos h] at hs
      simp only [Option.some.injEq] at hs
      subst hs
      by_cases hz : s.valid ⟨i, h⟩ = 0
      · simp only [if_pos hz]
        refine ⟨hi.h_fresh, hi.h_ended, hi.h_live, ?_⟩
        simp only [PcInv]
        refine ⟨hfin, ?_, hout⟩
        rw [if_neg]
        intro c
        exact c _ hz
      · simp only [if_neg hz]
        refine ⟨hi.h_fresh, hi.h_ended, hi.h_live, ?_⟩
        simp only [PcInv]
        refine ⟨h, hfin, fun k hk => ?_, hout⟩
        by_cases e : k.val = i
        · have : k = ⟨i, h⟩ := Fin.ext e
          rw [this]; exact hz
        · exact hnz k (by omega)
    · rw [dif_neg h] at hs
      simp only [Option.some.injEq] at hs
      subst hs
      refine ⟨hi.h_fresh, hi.h_ended, hi.h_live, ?_⟩
      simp only [PcInv]
      refine ⟨hfin, ?_, hout⟩
      rw [if_pos]
      intro k
      exact hnz k (by have := k.isLt; omega)
  | reporting a =>
    rw [hpc] at hs hpcinv
    simp only [Option.some.injEq] at hs hpcinv
    obtain ⟨hfin, ha, hout⟩ := hpcinv
    subst hs
    refine ⟨hi.h_fresh, hi.h_ended, hi.h_live, ?_⟩
    simp only [PcInv]
    refine ⟨hfin, trivial, ?_⟩
    rw [hout, ← ha]
    simp
  | returned st =>
    rw [hpc] at hs
    cases hs

theorem sys_thread_step (g : Grid) (s : Sys) (k : Fin NUM_THREADS) (r : Sys × Option Access)
    (hs : Sys.step g (some k) s = some r) :
    ∃ t q, s.threads k = some t ∧ thread_step g (descriptor k) s.valid t = some q ∧
      r = ({ s with threads := Function.update s.threads k (some q.1), valid := q.2.1 },
        some q.2.2) := by
  simp only [Sys.step, params_eq] at hs
  cases ht : s.threads k with
  | none => rw [ht] at hs; cases hs
  | some t =>
    rw [ht] at hs
    simp only at hs
    cases hq : thread_step g (descriptor k) s.valid t with
    | none => rw [hq] at hs; cases hs
    | some q =>
      rw [hq] at hs
      simp only [Option.map_some', Option.some.injEq] at hs
      exact ⟨t, q, rfl, hq, hs.symm⟩

theorem thread_step_finished_none (g : Grid) (p : parameters) (v : Board) :
    thread_step g p v .finished = none := rfl

/-- What a step of thread `k` does in a state of the invariant. -/
theorem inv_thread_step (g : Grid) (valid0 : Board) (s : Sys) (k : Fin NUM_THREADS)
    (r : Sys × Option Access) (hi : Inv g valid0 s) (hs : Sys.step g (some k) s = some r) :
    Inv g valid0 r.1 ∧ r.1.pc = s.pc ∧
    (∃ t, s.threads k = some t ∧ t ≠ .finished) ∧
    ((∃ i j : Int, r.2 = some ⟨false, .sudoku i j⟩ ∧ 0 ≤ i ∧ i ≤ 8 ∧ 0 ≤ j ∧ j ≤ 8) ∨
      r.2 = some ⟨true, .valid (k.val : Int)⟩) := by
  obtain ⟨t, q, ht, hq, hr⟩ := sys_thread_step g s k r hs
  have htf : t ≠ .finished := by
    intro c; rw [c, thread_step_finished_none] at hq; cases hq
  obtain ⟨hok, hv0⟩ := hi.h_live k t ht htf
  have hstep := thread_step_ok g k t s.valid hok q hq
  have hframe : ∀ j, j ≠ k → q.2.1 j = s.valid j := by
    intro j hj
    rcases hstep with h | h
    · rw [h.2.2.1]
    · rw [h.2.1, Function.update_noteq hj]
  have hthr : ∀ j, Function.update s.threads k (some q.1) j ≠ none ↔ s.threads j ≠ none := by
    intro j
    by_cases e : j = k
    · subst e; simp [ht]
    · rw [Function.update_noteq e]
  subst hr
  refine ⟨⟨fun j hj => ?_, fun j hj => ?_, fun j t1 hj ht1 => ?_, ?_⟩, rfl, ⟨t, ht, htf⟩, ?_⟩
  · by_cases e : j = k
    · subst e; simp at hj
    · simp only [Function.update_noteq e] at hj
      show q.2.1 j = valid0 j
      rw [hframe j e]; exact hi.h_fresh j hj
  · by_cases e : j = k
    · subst e
      simp only [Function.update_same, Option.some.injEq] at hj
      show q.2.1 j = verdicts g j
      rcases hstep with h | h
      · exact absurd hj h.1
      · rw [h.2.1, Function.update_same]
    · simp only [Function.update_noteq e] at hj
      show q.2.1 j = verdicts g j
      rw [hframe j e]; exact hi.h_ended j hj
  · by_cases e : j = k
    · subst e
      simp only [Function.update_same, Option.some.injEq] at hj
      subst hj
      show ThreadOK g j q.1 ∧ q.2.1 j = valid0 j
      rcases hstep with h | h
      · exact ⟨h.2.1, by rw [h.2.2.1]; exact hv0⟩
      · exact absurd h.1 ht1
    · simp only [Function.update_noteq e] at hj
      show ThreadOK g j t1 ∧ q.2.1 j = valid0 j
      rw [hframe j e]; exact hi.h_live j t1 hj ht1
  · have hpcinv := hi.h_pc
    unfold PcInv at hpcinv ⊢
    have hnotall : ¬ ∀ j, s.threads j = some .finished := by
      intro c
      have := c k
      rw [ht] at this
      exact htf (Option.some.inj this)
    cases hpc : s.pc with
    | creating n =>
      rw [hpc] at hpcinv
      simp only [hpc] at hpcinv ⊢
      exact ⟨hpcinv.1, fun j => by rw [hthr j]; exact hpcinv.2.1 j, hpcinv.2.2⟩
    | joining n =>
      rw [hpc] at hpcinv
      simp only [hpc] at hpcinv ⊢
      refine ⟨hpcinv.1, fun j => by rw [hthr j]; exact hpcinv.2.1 j, fun j hj => ?_, hpcinv.2.2.2⟩
      have hjf := hpcinv.2.2.1 j hj
      by_cases e : j = k
      · subst e
        rw [ht] at hjf
        exact absurd (Option.some.inj hjf) htf
      · rw [Function.update_noteq e]; exact hjf
    | aggregating i =>
      rw [hpc] at hpcinv
      simp only at hpcinv
      exact absurd hpcinv.2.1 hnotall
    | reporting a =>
      rw [hpc] at hpcinv
      simp only at hpcinv
      exact absurd hpcinv.1 hnotall
    | returned st =>
      rw [hpc] at hpcinv
      simp only at hpcinv
      exact absurd hpcinv.1 hnotall
  · rcases hstep with h | h
    · obtain ⟨i, j, hx, hb⟩ := h.2.2.2
      exact Or.inl ⟨i, j, by rw [hx], hb⟩
    · exact Or.inr (by rw [h.2.2])

theorem inv_step (g : Grid) (valid0 : Board) (s : Sys) (a : Option (Fin NUM_THREADS))
    (r : Sys × Option Access) (hi : Inv g valid0 s) (hs : Sys.step g a s = some r) :
    Inv g valid0 r.1 := by
  cases a with
  | none => exact inv_main_step g valid0 s r hi hs
  | some k => exact (inv_thread_step g valid0 s k r hi hs).1

theorem inv_run (g : Grid) (valid0 : Board) (sched : List (Option (Fin NUM_THREADS))) :
    ∀ s s1 : Sys, Inv g valid0 s → Sys.run g sched s = some s1 → Inv g valid0 s1 := by
  induction sched with
  | nil =>
    intro s s1 hi h
    simp only [Sys.run, Option.some.injEq] at h
    rw [← h]; exact hi
  | cons a as ih =>
    intro s s1 hi h
    simp only [Sys.run] at h
    cases hs : Sys.step g a s with
    | none => rw [hs] at h; cases h
    | some r =>
      rw [hs] at h
      exact ih r.1 s1 (inv_step g valid0 s a r hi hs) h

/-- The only shared access of `main` is the read of a slot in the aggregation
loop, made when every thread has ended. -/
theorem main_step_access (g : Grid) (valid0 : Board) (s : Sys) (r : Sys) (x : Access)
    (hi : Inv g valid0 s) (hs : main_step s = some (r, some x)) :
    (∃ i : Fin NUM_THREADS, x = ⟨false, .valid (i.val : Int)⟩) ∧
      ∀ k, s.threads k = some .finished := by
  have hpcinv := hi.h_pc
  unfold PcInv at hpcinv
  unfold main_step at hs
  cases hpc : s.pc with
  | creating n =>
    rw [hpc] at hs
    simp only at hs
    by_cases h : n < NUM_THREADS
    · rw [dif_pos h, params_eq] at hs
      simp only [Option.some.injEq, Prod.mk.injEq] at hs
      exact absurd hs.2 (by simp)
    · rw [dif_neg h] at hs
      simp only [Option.some.injEq, Prod.mk.injEq] at hs
      exact absurd hs.2 (by simp)
  | joining n =>
    rw [hpc] at hs
    simp only at hs
    by_cases h : n < NUM_THREADS
    · rw [dif_pos h] at hs
      cases ht : s.threads ⟨n, h⟩ with
      | none => rw [ht] at hs; cases hs
      | some t =>
        rw [ht] at hs
        cases t with
        | finished =>
          simp only [Option.some.injEq, Prod.mk.injEq] at hs
          exact absurd hs.2 (by simp)
        | scanning todo seen => cases hs
        | rejecting => cases hs
        | crashed => cases hs
    · rw [dif_neg h] at hs
      simp only [Option.some.injEq, Prod.mk.injEq] at hs
      exact absurd hs.2 (by simp)
  | aggregating i =>
    rw [hpc] at hs hpcinv
    simp only at hs hpcinv
    by_cases h : i < NUM_THREADS
    · rw [dif_pos h] at hs
      simp only [Option.some.injEq, Prod.mk.injEq] at hs
      exact ⟨⟨⟨i, h⟩, hs.2.symm⟩, hpcinv.2.1⟩
    · rw [dif_neg h] at hs
      simp only [Option.some.injEq, Prod.mk.injEq] at hs
      exact absurd hs.2 (by simp)
  | reporting a =>
    rw [hpc] at hs
    simp only [Option.some.injEq, Prod.mk.injEq] at hs
    exact absurd hs.2 (by simp)
  | returned st =>
    rw [hpc] at hs
    cases hs

/-- In a state of the invariant no two agents have steps whose accesses
conflict. -/
theorem inv_race_free (g : Grid) (valid0 : Board) (s : Sys) (hi : Inv g valid0 s)
    (a b : Option (Fin NUM_THREADS)) (hab : a ≠ b) (ra rb : Sys) (x y : Access)
    (ha : Sys.step g a s = some (ra, some x)) (hb : Sys.step g b s = some (rb, some y)) :
    ¬ Conflict x y := by
  have thread_vs_main : ∀ (k : Fin NUM_THREADS) (r1 r2 : Sys) (x1 x2 : Access),
      Sys.step g (some k) s = some (r1, some x1) → main_step s = some (r2, some x2) → False := by
    intro k r1 r2 x1 x2 h1 h2
    obtain ⟨t, ht, htf⟩ := (inv_thread_step g valid0 s k _ hi h1).2.2.1
    have := (main_step_access g valid0 s r2 x2 hi h2).2 k
    rw [ht] at this
    exact htf (Option.some.inj this)
  cases a with
  | none =>
    cases b with
    | none => exact absurd rfl hab
    | some k => exact fun _ => thread_vs_main k rb ra y x hb ha
  | some j =>
    cases b with
    | none => exact fun _ => thread_vs_main j ra rb x y ha hb
    | some k =>
      have hjk : j ≠ k := fun c => hab (by rw [c])
      have h1 := (inv_thread_step g valid0 s j _ hi ha).2.2.2
      have h2 := (inv_thread_step g valid0 s k _ hi hb).2.2.2
      simp only [Option.some.injEq] at h1 h2
      rintro ⟨hloc, hw⟩
      rcases h1 with ⟨i1, j1, hx, _⟩ | hx <;> rcases h2 with ⟨i2, j2, hy, _⟩ | hy <;>
        subst hx <;> subst hy
      · simp at hw
      · simp at hloc
      · simp at hloc
      · simp only [Loc.valid.injEq, Nat.cast_inj] at hloc
        exact hjk (Fin.ext hloc)

theorem inv_progress (g : Grid) (valid0 : Board) (s : Sys) (hi : Inv g valid0 s)
    (hnr : ∀ st, s.pc ≠ .returned st) : ∃ a r, Sys.step g a s = some r := by
  have hpcinv := hi.h_pc
  unfold PcInv at hpcinv
  cases hpc : s.pc with
  | creating n =>
    refine ⟨none, ?_⟩
    simp only [Sys.step, main_step, hpc]
    by_cases h : n < NUM_THREADS
    · simp only [dif_pos h, params_eq]; exact ⟨_, rfl⟩
    · simp only [dif_neg h]; exact ⟨_, rfl⟩
  | joining n =>
    rw [hpc] at hpcinv
    simp only at hpcinv
    by_cases h : n < NUM_THREADS
    · cases ht : s.threads ⟨n, h⟩ with
      | none => exact absurd ht (hpcinv.2.1 _)
      | some t =>
        cases t with
        | finished =>
          refine ⟨none, ?_⟩
          simp only [Sys.step, main_step, hpc, dif_pos h, ht]
          exact ⟨_, rfl⟩
        | crashed =>
          exfalso
          have hok := (hi.h_live _ _ ht (by simp)).1 valid0
          rw [thread_total_crashed] at hok
          cases hok
        | rejecting =>
          refine ⟨some ⟨n, h⟩, ?_⟩
          simp only [Sys.step, ht, params_eq, thread_step, Option.map_some']
          exact ⟨_, rfl⟩
        | scanning todo seen =>
          refine ⟨some ⟨n, h⟩, ?_⟩
          cases todo with
          | nil =>
            simp only [Sys.step, ht, params_eq, thread_step, Option.map_some']
            exact ⟨_, rfl⟩
          | cons rc todo =>
            simp only [Sys.step, ht, params_eq, thread_step, Option.map_some']
            exact ⟨_, rfl⟩
    · refine ⟨none, ?_⟩
      simp only [Sys.step, main_step, hpc, dif_neg h]
      exact ⟨_, rfl⟩
  | aggregating i =>
    refine ⟨none, ?_⟩
    simp only [Sys.step, main_step, hpc]
    by_cases h : i < NUM_THREADS
    · simp only [dif_pos h]; exact ⟨_, rfl⟩
    · simp only [dif_neg h]; exact ⟨_, rfl⟩
  | reporting a =>
    refine ⟨none, ?_⟩
    simp only [Sys.step, main_step, hpc]
    exact ⟨_, rfl⟩
  | returned st => exact absurd hpc (hnr st)

theorem fuel_update_lt (f : Fin NUM_THREADS → Option Thread) (k : Fin NUM_THREADS)
    (x : Option Thread) (h : Thread.fuel x < Thread.fuel (f k)) :
    ∑ j, Thread.fuel (Function.update f k x j) < ∑ j, Thread.fuel (f j) := by
  apply Finset.sum_lt_sum
  · intro j _
    by_cases e : j = k
    · subst e; rw [Function.update_same]; exact le_of_lt h
    · rw [Function.update_noteq e]
  · exact ⟨k, Finset.mem_univ k, by rw [Function.update_same]; exact h⟩

theorem thread_step_fuel (g : Grid) (p : parameters) (v : Board) (t : Thread)
    (q : Thread × Board × Access) (h : thread_step g p v t = some q) :
    Thread.fuel (some q.1) < Thread.fuel (some t) := by
  cases t with
  | finished => cases h
  | crashed => cases h
  | rejecting =>
    simp only [thread_step, Option.some.injEq] at h
    subst h
    cases writeArr v p.thread_num 0 <;> simp [Thread.fuel]
  | scanning todo seen =>
    cases todo with
    | nil =>
      simp only [thread_step, Option.some.injEq] at h
      subst h
      cases writeArr v p.thread_num 1 <;> simp [Thread.fuel]
    | cons rc todo =>
      simp only [thread_step, Option.some.injEq] at h
      subst h
      cases sudokuAt g rc.1 rc.2 with
      | none => simp [Thread.fuel]
      | some num =>
        simp only
        by_cases hr : num < 1 ∨ num > 9
        · simp [if_pos hr, Thread.fuel]
        · simp only [if_neg hr]
          cases readArr seen num with
          | none => simp [Thread.fuel]
          | some s0 =>
            simp only
            by_cases hz : s0 ≠ 0
            · simp [if_pos hz, Thread.fuel]
            · simp only [if_neg hz]
              cases writeArr seen num 1 <;> simp [Thread.fuel]

theorem main_step_fuel (g : Grid) (valid0 : Board) (s : Sys) (r : Sys × Option Access)
    (hi : Inv g valid0 s) (hs : main_step s = some r) : r.1.fuel < s.fuel := by
  have hpcinv := hi.h_pc
  unfold PcInv at hpcinv
  unfold main_step at hs
  unfold Sys.fuel
  cases hpc : s.pc with
  | creating n =>
    rw [hpc] at hs hpcinv
    simp only at hs hpcinv
    obtain ⟨hn, hthr, _⟩ := hpcinv
    by_cases h : n < NUM_THREADS
    · rw [dif_pos h, params_eq] at hs
      simp only [Option.some.injEq] at hs
      subst hs
      have hnone : s.threads ⟨n, h⟩ = none := by
        by_contra hc
        have := (hthr ⟨n, h⟩).mpr hc
        simp at this
      have hlt := fuel_update_lt s.threads ⟨n, h⟩ (some (thread_start (descriptor ⟨n, h⟩)))
        (by rw [hnone]
            simp [Thread.fuel, thread_start, region_cells_descriptor_length])
      simp only [MainPc.fuel]
      simp only [NUM_THREADS] at h
      omega
    · rw [dif_neg h] at hs
      simp only [Option.some.injEq] at hs
      subst hs
      simp only [MainPc.fuel]
      simp only [NUM_THREADS] at hn
      omega
  | joining n =>
    rw [hpc] at hs hpcinv
    simp only at hs hpcinv
    have hn := hpcinv.1
    simp only [NUM_THREADS] at hn
    by_cases h : n < NUM_THREADS
    · rw [dif_pos h] at hs
      cases ht : s.threads ⟨n, h⟩ with
      | none => rw [ht] at hs; cases hs
      | some t =>
        rw [ht] at hs
        cases t with
        | finished =>
          simp only [Option.some.injEq] at hs
          subst hs
          simp only [MainPc.fuel]
          omega
        | scanning todo seen => cases hs
        | rejecting => cases hs
        | crashed => cases hs
    · rw [dif_neg h] at hs
      simp only [Option.some.injEq] at hs
      subst hs
      simp only [MainPc.fuel]
      omega
  | aggregating i =>
    rw [hpc] at hs hpcinv
    simp only at hs hpcinv
    have hn := hpcinv.1
    simp only [NUM_THREADS] at hn
    by_cases h : i < NUM_THREADS
    · rw [dif_pos h] at hs
      simp only [Option.some.injEq] at hs
      subst hs
      by_cases hz : s.valid ⟨i, h⟩ = 0
      · simp only [if_pos hz, MainPc.fuel]; omega
      · simp only [if_neg hz, MainPc.fuel]; omega
    · rw [dif_neg h] at hs
      simp only [Option.some.injEq] at hs
      subst hs
      simp only [MainPc.fuel]
      omega
  | reporting a =>
    rw [hpc] at hs
    simp only [Option.some.injEq] at hs
    subst hs
    simp only [MainPc.fuel]
    omega
  | returned st =>
    rw [hpc] at hs
    cases hs

theorem step_fuel (g : Grid) (valid0 : Board) (s : Sys) (a : Option (Fin NUM_THREADS))
    (r : Sys × Option Access) (hi : Inv g valid0 s) (hs : Sys.step g a s = some r) :
    r.1.fuel < s.fuel := by
  cases a with
  | none => exact main_step_fuel g valid0 s r hi hs
  | some k =>
    obtain ⟨t, q, ht, hq, hr⟩ := sys_thread_step g s k r hs
    subst hr
    have := fuel_update_lt s.threads k (some q.1)
      (by rw [ht]; exact thread_step_fuel g _ _ t q hq)
    simp only [Sys.fuel]
    omega

/-- From every state of the invariant some interleaving leads to the return of
`main`. -/
theorem inv_completes (g : Grid) (valid0 : Board) :
    ∀ (n : Nat) (s : Sys), Inv g valid0 s → s.fuel ≤ n →
      ∃ more s1 st, Sys.run g more s = some s1 ∧ s1.pc = .returned st := by
  intro n
  induction n with
  | zero =>
    intro s hi hn
    by_cases hr : ∃ st, s.pc = .returned st
    · obtain ⟨st, hst⟩ := hr
      exact ⟨[], s, st, rfl, hst⟩
    · obtain ⟨a, r, hs⟩ := inv_progress g valid0 s hi (fun st c => hr ⟨st, c⟩)
      have := step_fuel g valid0 s a r hi hs
      omega
  | succ n ih =>
    intro s hi hn
    by_cases hr : ∃ st, s.pc = .returned st
    · obtain ⟨st, hst⟩ := hr
      exact ⟨[], s, st, rfl, hst⟩
    · obtain ⟨a, r, hs⟩ := inv_progress g valid0 s hi (fun st c => hr ⟨st, c⟩)
      have hf := step_fuel g valid0 s a r hi hs
      obtain ⟨more, s1, st, h1, h2⟩ := ih r.1 (inv_step g valid0 s a r hi hs) (by omega)
      refine ⟨a :: more, s1, st, ?_, h2⟩
      simp only [Sys.run, hs, h1]

theorem inv_all_ended (g : Grid) (valid0 : Board) (s : Sys) (hi : Inv g valid0 s)
    (h : ∀ k, s.threads k = some .finished) : s.valid = verdicts g :=
  funext fun k => hi.h_ended k (h k)

/-- C15: in the interleaving model, for every grid, every initial `valid[]`
and every interleaving of the steps of `main` and of the 27 threads, in the
state reached: no two agents have steps whose accesses conflict (no data
race); a step of thread `k` is a read of a cell of the grid or the write of
its own slot `valid[k]`, so the write targets of different threads are
disjoint; `main` reads `valid[]` only when every thread has ended (it is past
the join loop); once every thread has ended `valid[]` is the array the
sequential execution produces, and when `main` has returned its result is the
one of the sequential `main`; no state is stuck before the return, and the
interleaving can always be continued to the return of `main`. -/
theorem C15_interleavings (g : Grid) (valid0 : Board)
    (sched : List (Option (Fin NUM_THREADS))) (s : Sys)
    (h : Sys.run g sched (Sys.start valid0) = some s) :
    (∀ a b : Option (Fin NUM_THREADS), a ≠ b → ∀ (ra rb : Sys) (x y : Access),
      Sys.step g a s = some (ra, some x) → Sys.step g b s = some (rb, some y) →
        ¬ Conflict x y) ∧
    (∀ (k : Fin NUM_THREADS) (r : Sys) (x : Access),
      Sys.step g (some k) s = some (r, some x) →
        (∃ i j : Int, x = ⟨false, .sudoku i j⟩ ∧ 0 ≤ i ∧ i ≤ 8 ∧ 0 ≤ j ∧ j ≤ 8) ∨
          x = ⟨true, .valid (k.val : Int)⟩) ∧
    (∀ (r : Sys) (x : Access), Sys.step g none s = some (r, some x) →
      (∃ i : Fin NUM_THREADS, x = ⟨false, .valid (i.val : Int)⟩) ∧
        ∀ k, s.threads k = some .finished) ∧
    ((∀ k, s.threads k = some .finished) →
      run_tasks g dispatched.created valid0 = some s.valid) ∧
    (∀ st, s.pc = .returned st →
      main g valid0 = some { valid := s.valid, stdout := s.stdout, status := st }) ∧
    ((∀ st, s.pc ≠ .returned st) → ∃ a r, Sys.step g a s = some r) ∧
    (∃ more s1 st, Sys.run g more s = some s1 ∧ s1.pc = .returned st) := by
  have hi : Inv g valid0 s := inv_run g valid0 sched _ s (inv_start g valid0) h
  refine ⟨fun a b hab ra rb x y ha hb => inv_race_free g valid0 s hi a b hab ra rb x y ha hb,
    fun k r x hs => ?_, fun r x hs => main_step_access g valid0 s r x hi hs,
    fun hall => ?_, fun st hst => ?_, inv_progress g valid0 s hi,
    inv_completes g valid0 s.fuel s hi (le_refl _)⟩
  · have := (inv_thread_step g valid0 s k _ hi hs).2.2.2
    simpa using this
  · rw [run_tasks_created, inv_all_ended g valid0 s hi hall]
  · have hp := hi.h_pc
    unfold PcInv at hp
    rw [hst] at hp
    simp only at hp
    obtain ⟨hall, h0, hout⟩ := hp
    rw [main_spec, hout, h0, inv_all_ended g valid0 s hi hall]

/-- Witness of C15: on the compiled-in grid, the interleaving in which `main`
creates two threads, thread 1 and thread 0 take a step each, `main` creates a
third thread and thread 1 takes another step. -/
theorem C15_interleavings_witness :
    ∃ s, Sys.run sudoku [none, none, some 1, some 0, none, some 1] (Sys.start valid) = some s ∧
      s.pc = .creating 3 ∧ (∃ a r, Sys.step sudoku a s = some r) ∧
      ∃ more s1 st, Sys.run sudoku more s = some s1 ∧ s1.pc = .returned st := by
  have hpc : (Sys.run sudoku [none, none, some 1, some 0, none, some 1]
      (Sys.start valid)).map (fun s => s.pc) = some (.creating 3) := by decide
  cases hs : Sys.run sudoku [none, none, some 1, some 0, none, some 1] (Sys.start valid) with
  | none => rw [hs] at hpc; cases hpc
  | some s =>
    rw [hs] at hpc
    simp only [Option.map_some', Option.some.injEq] at hpc
    have hc := C15_interleavings sudoku valid _ s hs
    exact ⟨s, rfl, hpc, hc.2.2.2.2.2.1 (fun st c => by rw [hpc] at c; cases c),
      hc.2.2.2.2.2.2⟩

end SudokuValidator
